import Mathlib

set_option maxRecDepth 100000

/-!
Shallow embedding of the discrete colorbar level-generation and tick-selection
core of the `climplot` library (`src/climplot/colormaps.py` and
`src/climplot/panels.py`).

Numeric values are modelled as exact rationals (`ℚ`): the Python code operates
on IEEE doubles, but every algorithmic decision it makes (floor/ceil of
base-10 logarithms, decimal rounding, stride enumeration, roundness scoring)
is a decimal-arithmetic computation that the rational model reproduces
exactly on the inputs considered here.  `np.allclose`/`np.isclose` are
modelled as exact equality.  Raised `ValueError`s are modelled as `none`.
-/

section ClimplotModel

attribute [local semireducible] Rat.mul Rat.add Rat.sub Rat.inv

/-- Fuel-driven base-10 logarithm on `ℕ`; with fuel at least `n` it computes
the number of digits of `n` minus one. -/
def natLog10Aux : ℕ → ℕ → ℕ
  | 0, _ => 0
  | f + 1, n => if n < 10 then 0 else natLog10Aux f (n / 10) + 1

/-- `⌊log10 n⌋` for `1 ≤ n`. -/
def natLog10 (n : ℕ) : ℕ := natLog10Aux n n

/-- `(10 : ℚ) ^ e` for an integer exponent. -/
def pow10 (e : ℤ) : ℚ := (10 : ℚ) ^ e

/-- `⌈log10 r⌉` for `1 < r`, as the least `m` with `r ≤ 10 ^ m` (0 for `r ≤ 1`). -/
def ratClog10 (r : ℚ) : ℕ := if r ≤ 1 then 0 else natLog10 (⌈r⌉ - 1).toNat + 1

/-- `int(np.floor(np.log10 q))` for `q > 0` (junk value 0 for `q ≤ 0`,
where the Python expression would produce `nan`). -/
def ilog10 (q : ℚ) : ℤ := if 1 ≤ q then natLog10 ⌊q⌋.toNat else -(ratClog10 q⁻¹ : ℕ)

/-- `int(np.ceil(np.log10 q))` for `q > 0`. -/
def iclog10 (q : ℚ) : ℤ := -(ilog10 q⁻¹)

/-- Round half to even on `ℚ` (the tie-breaking rule used by `np.round`). -/
def rhe (x : ℚ) : ℤ :=
  if x - ⌊x⌋ < 1/2 then ⌊x⌋
  else if 1/2 < x - ⌊x⌋ then ⌊x⌋ + 1
  else if ⌊x⌋ % 2 = 0 then ⌊x⌋ else ⌊x⌋ + 1

/-- `np.round(x, d)`: round to `d` decimal places, half to even. -/
def roundTo (d : ℕ) (x : ℚ) : ℚ := (rhe (x * 10 ^ d) : ℚ) / 10 ^ d

/-- `_decimals` from `colormaps.py`:
`max(0, -int(np.floor(np.log10(abs(interval)))) + 1) if interval != 0 else 0`. -/
def ratDecimals (interval : ℚ) : ℕ :=
  if interval = 0 then 0 else (max 0 (1 - ilog10 |interval|)).toNat

/-- `np.arange(start, stop, step)` for `step > 0`:
`start + k*step` for `0 ≤ k < ⌈(stop - start)/step⌉`. -/
def arange (start stop step : ℚ) : List ℚ :=
  (List.range (⌈(stop - start) / step⌉).toNat).map (fun k : ℕ => start + (k : ℚ) * step)

/-- `np.unique`: sort ascending and drop duplicates. -/
def npUnique (l : List ℚ) : List ℚ :=
  (l.insertionSort (· ≤ ·)).destutter (· < ·)

/-- Levels computed by `discrete_cmap(vmin, vmax, interval, ..., center_on_white)`
(`colormaps.py`, lines 211-225).  Only the level array is modelled; the colormap
and `BoundaryNorm` objects belong to the excluded rendering layer. -/
def discreteLevels (vmin vmax interval : ℚ) (center_on_white : Bool) : List ℚ :=
  let d := ratDecimals interval
  if center_on_white then
    let neg_levels := arange vmin (-interval / 10) interval
    let white_band := [-interval / 2, interval / 2]
    let pos_levels := arange interval (vmax + interval / 2) interval
    npUnique ((npUnique (neg_levels ++ white_band ++ pos_levels)).map (roundTo d))
  else
    (arange vmin (vmax + interval / 2) interval).map (roundTo d)

/-- `np.argmin(np.abs(candidates - target))` returning the candidate value;
ties keep the earliest candidate, as `np.argmin` does. -/
def argminAbs (l : List ℚ) (target : ℚ) : ℚ :=
  match l with
  | [] => 0
  | c :: cs => cs.foldl (fun best c' => if |c' - target| < |best - target| then c' else best) c

/-- `auto_levels(vmin, vmax, n_levels)` (`colormaps.py`, lines 260-324).
`none` models the `ValueError`s. -/
def autoLevels (vmin vmax : ℚ) (n_levels : ℤ) : Option (ℚ × List ℚ) :=
  if vmin ≥ vmax then none
  else if n_levels < 1 then none
  else
    let raw := (vmax - vmin) / (n_levels : ℚ)
    let mag := pow10 (ilog10 raw)
    let interval := argminAbs [1 * mag, 2 * mag, 5 * mag, 10 * mag] raw
    let snappedMin := (⌊vmin / interval⌋ : ℚ) * interval
    let snappedMax := (⌈vmax / interval⌉ : ℚ) * interval
    let d := ratDecimals interval
    some (interval, (arange snappedMin (snappedMax + interval / 2) interval).map (roundTo d))

/-- Per-decade sub-steps used by `log_cmap` (`colormaps.py`, lines 379-388).
For `per_decade` outside {1, 2, 3} the code uses `np.logspace`, whose
sub-steps are irrational and hence not representable in this rational model;
that branch is modelled with an empty sub-step list and is not used by any
claim. -/
def logSubs (per_decade : ℕ) : List ℚ :=
  if per_decade = 1 then [1]
  else if per_decade = 2 then [1, 3]
  else if per_decade = 3 then [1, 2, 5]
  else []

/-- The level list built by `log_cmap` before the empty-list fallback
(`colormaps.py`, lines 379-402). -/
def logLevelsRaw (vmin vmax : ℚ) (per_decade : ℕ) : List ℚ :=
  let subs := logSubs per_decade
  let lo := ilog10 vmin
  let hi := iclog10 vmax
  let exps := (List.range (hi + 1 - lo).toNat).map (fun k : ℕ => lo + (k : ℤ))
  let raw := exps.flatMap (fun e => subs.filterMap (fun s =>
    let v := s * pow10 e
    if vmin ≤ v ∧ v ≤ vmax then some v else none))
  npUnique raw

/-- Levels of `log_cmap(vmin, vmax, ..., per_decade, ...)`; `none` models the
`ValueError`s. -/
def logCmapLevels (vmin vmax : ℚ) (per_decade : ℕ) : Option (List ℚ) :=
  if vmin ≤ 0 then none
  else if vmax ≤ vmin then none
  else
    let lv := logLevelsRaw vmin vmax per_decade
    some (if lv = [] then [vmin, vmax] else lv)

/-- Trailing-zero counter for the decimal numeral of `n` (fuel-driven; fuel `n`
is always enough).  Matches counting trailing `0` characters of `str(n)` for
`n ≥ 1`. -/
def tzAux : ℕ → ℕ → ℕ
  | 0, _ => 0
  | f + 1, n => if 10 ≤ n ∧ n % 10 = 0 then tzAux f (n / 10) + 1 else 0

/-- Number of trailing zeros of the decimal numeral of a positive `n`. -/
def trailingZeros (n : ℕ) : ℕ := tzAux n n

/-- Last-digit preference used by `_roundness_score`: 5 → +2, even → +1. -/
def lastDigitBonus (d : ℕ) : ℤ := if d = 5 then 2 else if d % 2 = 0 then 1 else 0

/-- Number of digits after the decimal point of `q` written exactly in decimal
(0 if `q` is an integer; junk 0 if `q` has no finite decimal expansion of at
most 64 places — never the case for the 10-smooth values it is applied to). -/
def decLen (q : ℚ) : ℕ := ((List.range 64).find? (fun d => (q * 10 ^ d).den = 1)).getD 0

/-- Round a positive rational to 10 significant digits, half to even — the
rounding performed by the Python format `f-string` `.10g` before printing. -/
def sigRound10 (a : ℚ) : ℚ :=
  (rhe (a * pow10 (9 - ilog10 a)) : ℚ) * pow10 (ilog10 a - 9)

/-- Score of the fractional tier of `_roundness_score` (`panels.py`, lines
177-192): the digit string inspected by the Python code is `f-string`
formatting of `abs_val` with `.10g`, modelled here on exact rationals.
The plain-notation branch covers exponents in `[-4, 9]`; otherwise `%g`
prints scientific notation `m.dd...e±XX` and the code's `split` / `rstrip`
operate on the mantissa-plus-exponent digit string. -/
def fracScore (a : ℚ) : ℤ :=
  let a' := sigRound10 a
  let e' := ilog10 a'
  if -4 ≤ e' ∧ e' < 10 then
    let nd := decLen a'
    if nd = 0 then 15
    else
      let last := (a' * 10 ^ nd).num.toNat % 10
      max 1 (10 - 2 * (nd : ℤ)) + lastDigitBonus last
  else
    let m := a' * pow10 (-e')
    let md := decLen m
    if md = 0 then 15
    else
      let eAbs := e'.natAbs
      let p := max 2 (natLog10 eAbs + 1)
      let t := trailingZeros eAbs
      let nd := md + 2 + (p - t)
      let last := (eAbs / 10 ^ t) % 10
      max 1 (10 - 2 * (nd : ℤ)) + lastDigitBonus last

/-- `_roundness_score` (`panels.py`, lines 142-192).  `np.isfinite` is always
true in the rational model; `float(abs_val) == int(abs_val)` is `den = 1`. -/
def roundnessScore (value : ℚ) : ℤ :=
  if value = 0 then 30
  else
    let a := |value|
    if a.den = 1 ∧ a < 10 ^ 15 then
      let n := a.num.toNat
      let t := trailingZeros n
      let last := (n / 10 ^ t) % 10
      20 + 3 * (t : ℤ) + lastDigitBonus last
    else fracScore a

/-- `np.diff`. -/
def diffs : List ℚ → List ℚ
  | x :: y :: rest => (y - x) :: diffs (y :: rest)
  | _ => []

/-- `_score_subset`: total roundness plus a +20 bonus when all gaps are equal
(`np.allclose` modelled as exact equality). -/
def scoreSubset (subset : List ℚ) : ℤ :=
  let base := (subset.map roundnessScore).foldl (· + ·) 0
  match diffs subset with
  | [] => base
  | g :: gs => if gs.all (fun g' => g' == g) then base + 20 else base

/-- `boundaries[offset::stride]` for `stride ≥ 1`. -/
def sliceStride (l : List ℚ) (offset stride : ℕ) : List ℚ :=
  (List.range ((l.length - offset + stride - 1) / stride)).map
    (fun k => l.getD (offset + k * stride) 0)

/-- All subsets enumerated by the stride/offset search of `_best_stride_subset`:
strides in `[min_stride, 2*min_stride]`, offsets in `[0, stride)`.
(`max_ticks = 0` would raise `ZeroDivisionError` in Python; claims only use
`max_ticks ≥ 1`.) -/
def strideCandidates (l : List ℚ) (max_ticks : ℕ) : List (List ℚ) :=
  let n := l.length
  let minStride := max 1 ((n + max_ticks - 1) / max_ticks)
  (List.range' minStride (minStride + 1)).flatMap
    (fun stride => (List.range stride).map (fun offset => sliceStride l offset stride))

/-- One step of the best-subset loop: a candidate replaces the current best
exactly when it satisfies `p` and scores strictly higher (first maximum wins,
as in the Python loop). -/
def pickStep (p : List ℚ → Bool) (acc : Option (List ℚ) × ℤ) (c : List ℚ) :
    Option (List ℚ) × ℤ :=
  if p c = true ∧ acc.2 < scoreSubset c then (some c, scoreSubset c) else acc

/-- One pass of the best-subset loop, starting from
`best_subset = None`, `best_score = -1`. -/
def pickBest (p : List ℚ → Bool) (cands : List (List ℚ)) : Option (List ℚ) × ℤ :=
  cands.foldl (pickStep p) (none, -1)

/-- `_best_stride_subset(boundaries, max_ticks, min_ticks)` (`panels.py`,
lines 209-244): phase 1 enforces `min_ticks ≤ len ≤ max_ticks`; if nothing is
found the same candidates are rescanned with the minimum relaxed to 2. -/
def bestStrideSubset (l : List ℚ) (max_ticks min_ticks : ℕ) : Option (List ℚ) :=
  let cands := strideCandidates l max_ticks
  let phase1 := pickBest (fun s => decide (s.length ≤ max_ticks ∧ min_ticks ≤ s.length)) cands
  match phase1.1 with
  | some s => some s
  | none => (pickBest (fun s => decide (s.length ≤ max_ticks ∧ 2 ≤ s.length)) cands).1

/-- `_is_symmetric` (`panels.py`, lines 195-197): length > 2 and
`boundaries ≈ -boundaries[::-1]` (`np.allclose` modelled as exact equality). -/
def isSymmetric (l : List ℚ) : Bool :=
  decide (2 < l.length) && decide (l = l.reverse.map (fun x => -x))

/-- The stride/offset subsets enumerated on the positive-only half by
`_select_symmetric_ticks`: the same search loop as `_best_stride_subset`,
with the budget `half_max` in place of `max_ticks`. -/
def symCandidates (posOnly : List ℚ) (halfMax : ℕ) : List (List ℚ) :=
  let n := posOnly.length
  let minStride := if 0 < halfMax then max 1 ((n + halfMax - 1) / halfMax) else 1
  (List.range' minStride (minStride + 1)).flatMap
    (fun stride => (List.range stride).map (fun offset => sliceStride posOnly offset stride))

/-- `_select_symmetric_ticks` (`panels.py`, lines 247-293). -/
def selectSymmetricTicks (l : List ℚ) (max_ticks min_ticks : ℕ) : List ℚ :=
  let pos := l.filter (fun x => decide (0 ≤ x))
  let hasZero := match pos with
    | [] => false
    | x :: _ => decide (x = 0)
  let halfMax := if hasZero then (max_ticks - 1) / 2 else max_ticks / 2
  let posOnly := pos.filter (fun x => decide (0 < x))
  if posOnly = [] then l
  else
    let best := (pickBest (fun s => decide (s.length ≤ halfMax ∧ 1 ≤ s.length))
      (symCandidates posOnly halfMax)).1
    let bestPos := best.getD posOnly
    let neg := bestPos.reverse.map (fun x => -x)
    if hasZero then neg ++ [0] ++ bestPos else neg ++ bestPos

/-- The `BoundaryNorm` branch of `_thin_colorbar_ticks` (`panels.py`, lines
312-326): short boundary lists are shown in full, symmetric ones go through
the mirroring selector, the rest through the stride search (`none` meaning the
ticks are left unchanged). -/
def thinTicksBoundary (boundaries : List ℚ) (max_ticks min_ticks : ℕ) : Option (List ℚ) :=
  if boundaries.length ≤ max_ticks then some boundaries
  else if isSymmetric boundaries then some (selectSymmetricTicks boundaries max_ticks min_ticks)
  else bestStrideSubset boundaries max_ticks min_ticks

/-- Leading significant digit of a nonzero rational:
`⌊|q| / 10 ^ ⌊log10 |q|⌋⌋`. -/
def leadingDigit (q : ℚ) : ℤ := ⌊|q| / pow10 (ilog10 |q|)⌋

/-- Membership in `logLevelsRaw`: a value being a power of ten. -/
def isPow10 (q : ℚ) : Prop := ∃ e : ℤ, q = pow10 e

theorem natLog10Aux_spec (f : ℕ) : ∀ n : ℕ, n ≤ f → 1 ≤ n →
    10 ^ natLog10Aux f n ≤ n ∧ n < 10 ^ (natLog10Aux f n + 1) := by
  induction f with
  | zero => intro n hn h1; omega
  | succ f ih =>
    intro n hn h1
    by_cases h : n < 10
    · simp only [natLog10Aux, if_pos h]
      constructor
      · simpa using h1
      · simpa using h
    · simp only [natLog10Aux, if_neg h]
      push_neg at h
      have hdiv1 : 1 ≤ n / 10 := Nat.one_le_div_iff (by norm_num) |>.2 h
      have hdivf : n / 10 ≤ f := by
        have : n / 10 < n := Nat.div_lt_self (by omega) (by norm_num)
        omega
      obtain ⟨hlo, hhi⟩ := ih (n / 10) hdivf hdiv1
      constructor
      · calc 10 ^ (natLog10Aux f (n / 10) + 1)
            = 10 ^ natLog10Aux f (n / 10) * 10 := by ring
          _ ≤ n / 10 * 10 := by exact Nat.mul_le_mul_right 10 hlo
          _ ≤ n := Nat.div_mul_le_self n 10
      · calc n < (n / 10 + 1) * 10 := by
              have hm := Nat.div_add_mod n 10
              have hm2 : n % 10 < 10 := Nat.mod_lt _ (by norm_num)
              omega
          _ ≤ 10 ^ (natLog10Aux f (n / 10) + 1) * 10 := by
              exact Nat.mul_le_mul_right 10 (by omega)
          _ = 10 ^ (natLog10Aux f (n / 10) + 1 + 1) := by ring

theorem natLog10_spec (n : ℕ) (h1 : 1 ≤ n) :
    10 ^ natLog10 n ≤ n ∧ n < 10 ^ (natLog10 n + 1) :=
  natLog10Aux_spec n n le_rfl h1

theorem pow10_pos (e : ℤ) : 0 < pow10 e := by
  unfold pow10; positivity

theorem pow10_add (a b : ℤ) : pow10 (a + b) = pow10 a * pow10 b := by
  unfold pow10; rw [zpow_add₀ (by norm_num : (10:ℚ) ≠ 0)]

theorem pow10_le_pow10 {a b : ℤ} (h : a ≤ b) : pow10 a ≤ pow10 b :=
  zpow_le_zpow_right₀ (by norm_num) h

theorem pow10_lt_pow10 {a b : ℤ} (h : a < b) : pow10 a < pow10 b :=
  zpow_lt_zpow_right₀ (by norm_num) h

theorem pow10_natCast (n : ℕ) : pow10 (n : ℤ) = (10 : ℚ) ^ n := by
  unfold pow10; exact zpow_natCast 10 n

theorem ratClog10_spec (r : ℚ) (hr : 1 < r) :
    pow10 ((ratClog10 r : ℤ) - 1) < r ∧ r ≤ pow10 (ratClog10 r : ℤ) := by
  have hceil : (1 : ℤ) ≤ ⌈r⌉ - 1 := by
    have hq1 : (1:ℚ) < (⌈r⌉ : ℚ) := lt_of_lt_of_le hr (Int.le_ceil r)
    have : (1:ℤ) < ⌈r⌉ := by exact_mod_cast hq1
    omega
  set c : ℕ := (⌈r⌉ - 1).toNat with hc
  have hc1 : 1 ≤ c := by omega
  obtain ⟨hlo, hhi⟩ := natLog10_spec c hc1
  have hrc : ratClog10 r = natLog10 c + 1 := by
    unfold ratClog10; rw [if_neg (not_le.mpr hr)]
  constructor
  · -- 10 ^ natLog10 c ≤ c = ⌈r⌉ - 1 < r
    have h1 : ((10:ℚ)) ^ natLog10 c ≤ (c : ℚ) := by exact_mod_cast hlo
    have h2 : (c : ℚ) = ((⌈r⌉ : ℚ) - 1) := by
      have : ((⌈r⌉ - 1).toNat : ℤ) = ⌈r⌉ - 1 := Int.toNat_of_nonneg (by omega)
      push_cast [hc]
      exact_mod_cast congrArg (fun z : ℤ => (z : ℚ)) this
    have h3 : ((⌈r⌉ : ℚ) - 1) < r := by
      have := Int.ceil_lt_add_one r
      linarith
    have : pow10 ((ratClog10 r : ℤ) - 1) = (10:ℚ) ^ natLog10 c := by
      rw [hrc]; push_cast
      rw [show ((natLog10 c : ℤ) + 1 - 1) = (natLog10 c : ℤ) by ring, pow10_natCast]
    rw [this]
    calc (10:ℚ) ^ natLog10 c ≤ (c : ℚ) := h1
      _ = (⌈r⌉ : ℚ) - 1 := h2
      _ < r := h3
  · -- r ≤ ⌈r⌉ = c + 1 ≤ 10 ^ (natLog10 c + 1)
    have h1 : (c : ℚ) + 1 ≤ (10:ℚ) ^ (natLog10 c + 1) := by
      have : c + 1 ≤ 10 ^ (natLog10 c + 1) := hhi
      exact_mod_cast this
    have h2 : (⌈r⌉ : ℚ) = (c : ℚ) + 1 := by
      have : ((⌈r⌉ - 1).toNat : ℤ) = ⌈r⌉ - 1 := Int.toNat_of_nonneg (by omega)
      push_cast [hc]
      have := congrArg (fun z : ℤ => (z : ℚ)) this
      push_cast at this
      linarith
    have : pow10 (ratClog10 r : ℤ) = (10:ℚ) ^ (natLog10 c + 1) := by
      rw [hrc]; push_cast; rw [← pow10_natCast]; push_cast; ring_nf
    rw [this]
    calc r ≤ (⌈r⌉ : ℚ) := Int.le_ceil r
      _ = (c : ℚ) + 1 := h2
      _ ≤ (10:ℚ) ^ (natLog10 c + 1) := h1

theorem ilog10_spec (q : ℚ) (hq : 0 < q) :
    pow10 (ilog10 q) ≤ q ∧ q < pow10 (ilog10 q + 1) := by
  by_cases h1 : 1 ≤ q
  · have hfl : (1 : ℤ) ≤ ⌊q⌋ := by exact_mod_cast Int.le_floor.mpr (by exact_mod_cast h1)
    have hn : 1 ≤ ⌊q⌋.toNat := by omega
    obtain ⟨hlo, hhi⟩ := natLog10_spec ⌊q⌋.toNat hn
    have hi : ilog10 q = (natLog10 ⌊q⌋.toNat : ℤ) := by unfold ilog10; rw [if_pos h1]
    have hcast : ((⌊q⌋.toNat : ℤ) : ℚ) = (⌊q⌋ : ℚ) := by
      have : (⌊q⌋.toNat : ℤ) = ⌊q⌋ := Int.toNat_of_nonneg (by omega)
      exact_mod_cast congrArg (fun z : ℤ => (z : ℚ)) this
    constructor
    · rw [hi, pow10_natCast]
      have h10 : ((10:ℚ)) ^ natLog10 ⌊q⌋.toNat ≤ ((⌊q⌋.toNat : ℕ) : ℚ) := by exact_mod_cast hlo
      calc (10:ℚ) ^ natLog10 ⌊q⌋.toNat ≤ ((⌊q⌋.toNat : ℕ) : ℚ) := h10
        _ = (⌊q⌋ : ℚ) := by exact_mod_cast hcast
        _ ≤ q := Int.floor_le q
    · rw [hi]
      have h10 : ((⌊q⌋.toNat : ℕ) : ℚ) + 1 ≤ (10:ℚ) ^ (natLog10 ⌊q⌋.toNat + 1) := by
        exact_mod_cast hhi
      have hq1 : q < (⌊q⌋ : ℚ) + 1 := Int.lt_floor_add_one q
      have : pow10 ((natLog10 ⌊q⌋.toNat : ℤ) + 1) = (10:ℚ) ^ (natLog10 ⌊q⌋.toNat + 1) := by
        rw [← pow10_natCast]; push_cast; ring_nf
      rw [this]
      calc q < (⌊q⌋ : ℚ) + 1 := hq1
        _ = ((⌊q⌋.toNat : ℕ) : ℚ) + 1 := by rw [← hcast]; norm_cast
        _ ≤ (10:ℚ) ^ (natLog10 ⌊q⌋.toNat + 1) := h10
  · push_neg at h1
    have hr : 1 < q⁻¹ := (one_lt_inv₀ hq).mpr h1
    obtain ⟨hlo, hhi⟩ := ratClog10_spec q⁻¹ hr
    set m : ℤ := (ratClog10 q⁻¹ : ℤ) with hm
    have hi : ilog10 q = -m := by unfold ilog10; rw [if_neg (not_le.mpr h1)]
    have hPpos : (0:ℚ) < pow10 m := pow10_pos m
    have hP1pos : (0:ℚ) < pow10 (m - 1) := pow10_pos _
    constructor
    · rw [hi, show pow10 (-m) = 1 / pow10 m by unfold pow10; rw [zpow_neg, one_div]]
      rw [div_le_iff₀ hPpos]
      have := mul_le_mul_of_nonneg_left hhi (le_of_lt hq)
      rwa [mul_inv_cancel₀ (ne_of_gt hq)] at this
    · rw [hi, show -m + 1 = -(m - 1) by ring,
        show pow10 (-(m - 1)) = 1 / pow10 (m - 1) by unfold pow10; rw [zpow_neg, one_div]]
      rw [lt_div_iff₀ hP1pos]
      have := mul_lt_mul_of_pos_left hlo hq
      rwa [mul_inv_cancel₀ (ne_of_gt hq)] at this

theorem iclog10_spec (q : ℚ) (hq : 0 < q) :
    pow10 (iclog10 q - 1) < q ∧ q ≤ pow10 (iclog10 q) := by
  have hq' : 0 < q⁻¹ := inv_pos.mpr hq
  obtain ⟨hlo, hhi⟩ := ilog10_spec q⁻¹ hq'
  set e : ℤ := ilog10 q⁻¹ with he
  have hic : iclog10 q = -e := rfl
  have hPpos : (0:ℚ) < pow10 e := pow10_pos e
  have hP1pos : (0:ℚ) < pow10 (e + 1) := pow10_pos _
  constructor
  · rw [hic, show -e - 1 = -(e + 1) by ring,
      show pow10 (-(e + 1)) = 1 / pow10 (e + 1) by unfold pow10; rw [zpow_neg, one_div]]
    rw [div_lt_iff₀ hP1pos]
    have := mul_lt_mul_of_pos_left hhi hq
    rwa [mul_inv_cancel₀ (ne_of_gt hq)] at this
  · rw [hic, show pow10 (-e) = 1 / pow10 e by unfold pow10; rw [zpow_neg, one_div]]
    rw [le_div_iff₀ hPpos]
    have := mul_le_mul_of_nonneg_left hlo (le_of_lt hq)
    rwa [mul_inv_cancel₀ (ne_of_gt hq)] at this

theorem rhe_intCast (n : ℤ) : rhe (n : ℚ) = n := by
  unfold rhe
  simp [Int.floor_intCast]

theorem floor_le_rhe (x : ℚ) : ⌊x⌋ ≤ rhe x := by
  unfold rhe; split_ifs <;> omega

theorem rhe_le_floor_add_one (x : ℚ) : rhe x ≤ ⌊x⌋ + 1 := by
  unfold rhe; split_ifs <;> omega

theorem rhe_le (x : ℚ) : (rhe x : ℚ) ≤ x + 1/2 := by
  have hf := Int.floor_le x
  have hf1 := Int.lt_floor_add_one x
  unfold rhe
  split_ifs <;> push_cast <;> linarith

theorem le_rhe (x : ℚ) : x - 1/2 ≤ (rhe x : ℚ) := by
  have hf := Int.floor_le x
  have hf1 := Int.lt_floor_add_one x
  unfold rhe
  split_ifs <;> push_cast <;> linarith

theorem rhe_mono {x y : ℚ} (h : x ≤ y) : rhe x ≤ rhe y := by
  rcases lt_or_eq_of_le (Int.floor_le_floor h) with hlt | heq
  · have h1 := rhe_le_floor_add_one x
    have h2 := floor_le_rhe y
    omega
  · have hfr : x - (⌊x⌋ : ℚ) ≤ y - (⌊x⌋ : ℚ) := by linarith
    unfold rhe
    rw [← heq]
    split_ifs <;> first | omega | (exfalso; linarith)

theorem rhe_add_even (x : ℚ) (n : ℤ) (hn : n % 2 = 0) : rhe (x + n) = rhe x + n := by
  have hfl : ⌊x + (n:ℚ)⌋ = ⌊x⌋ + n := Int.floor_add_int x n
  have hfrac : x + (n:ℚ) - ((⌊x⌋ + n : ℤ) : ℚ) = x - (⌊x⌋ : ℚ) := by push_cast; ring
  have hpar : (⌊x⌋ + n) % 2 = ⌊x⌋ % 2 := by omega
  unfold rhe
  rw [hfl, hfrac, hpar]
  split_ifs <;> omega

/-- If `x` scaled by `10^d` is an integer, rounding leaves it unchanged. -/
theorem roundTo_eq_self {d : ℕ} {x : ℚ} (h : ∃ n : ℤ, x * 10 ^ d = (n : ℚ)) :
    roundTo d x = x := by
  obtain ⟨n, hn⟩ := h
  unfold roundTo
  rw [hn, rhe_intCast, ← hn]
  field_simp

theorem roundTo_le (d : ℕ) (x : ℚ) : roundTo d x ≤ x + 1/2 / 10 ^ d := by
  unfold roundTo
  have hp : (0:ℚ) < 10 ^ d := by positivity
  rw [div_le_iff₀ hp, add_mul, div_mul_cancel₀]
  · exact rhe_le _
  · positivity

theorem le_roundTo (d : ℕ) (x : ℚ) : x - 1/2 / 10 ^ d ≤ roundTo d x := by
  unfold roundTo
  have hp : (0:ℚ) < 10 ^ d := by positivity
  rw [le_div_iff₀ hp, sub_mul, div_mul_cancel₀]
  · exact le_rhe _
  · positivity

/-- Rounding with step at least ten grid cells is strictly monotone. -/
theorem roundTo_lt_roundTo {d : ℕ} {x y i : ℚ} (hxy : x + i ≤ y)
    (hstep : 10 ≤ i * 10 ^ d) : roundTo d x < roundTo d y := by
  unfold roundTo
  have hp : (0:ℚ) < 10 ^ d := by positivity
  rw [div_lt_div_iff_of_pos_right hp]
  have h10 : x * 10 ^ d + 10 ≤ y * 10 ^ d := by
    have := mul_le_mul_of_nonneg_right hxy (le_of_lt hp)
    rw [add_mul] at this
    linarith
  have h1 : rhe (x * 10 ^ d) + 10 = rhe (x * 10 ^ d + ((10:ℤ) : ℚ)) := by
    rw [rhe_add_even _ 10 (by norm_num)]
  have h2 : rhe (x * 10 ^ d + ((10:ℤ) : ℚ)) ≤ rhe (y * 10 ^ d) := by
    apply rhe_mono
    push_cast
    linarith
  have h3 : rhe (x * 10 ^ d) < rhe (y * 10 ^ d) := by omega
  exact_mod_cast h3

theorem npUnique_chain (l : List ℚ) : (npUnique l).Chain' (· < ·) :=
  List.destutter_is_chain' _ _

theorem destutter'_mem_of_sorted (l : List ℚ) :
    ∀ a : ℚ, (a :: l).Sorted (· ≤ ·) → ∀ x, (x ∈ List.destutter' (· < ·) a l ↔ x ∈ a :: l) := by
  induction l with
  | nil => intro a _ x; simp [List.destutter']
  | cons b l ih =>
    intro a hs x
    have hab : a ≤ b := (List.sorted_cons.mp hs).1 b (by simp)
    have hsbl : (b :: l).Sorted (· ≤ ·) := (List.sorted_cons.mp hs).2
    by_cases hlt : a < b
    · rw [List.destutter'_cons_pos _ hlt]
      simp only [List.mem_cons]
      rw [ih b hsbl x]
      simp [List.mem_cons]
    · rw [List.destutter'_cons_neg _ hlt]
      have heq : a = b := le_antisymm hab (not_lt.mp hlt)
      subst heq
      have hsal : (a :: l).Sorted (· ≤ ·) := by
        rw [List.sorted_cons]
        exact ⟨(List.sorted_cons.mp hsbl).1, (List.sorted_cons.mp hsbl).2⟩
      rw [ih a hsal x]
      simp only [List.mem_cons]
      tauto

theorem npUnique_mem (l : List ℚ) (x : ℚ) : x ∈ npUnique l ↔ x ∈ l := by
  unfold npUnique
  rcases hsort : l.insertionSort (· ≤ ·) with _ | ⟨a, t⟩
  · have : l = [] := by
      have := List.perm_insertionSort (· ≤ ·) l
      rw [hsort] at this
      exact (List.Perm.nil_eq this).symm
    simp [this, List.destutter]
  · have hs : (a :: t).Sorted (· ≤ ·) := by
      rw [← hsort]; exact List.sorted_insertionSort _ l
    rw [List.destutter_cons', destutter'_mem_of_sorted t a hs x, ← hsort]
    exact (List.perm_insertionSort _ l).mem_iff

theorem lastDigitBonus_nonneg (d : ℕ) : 0 ≤ lastDigitBonus d := by
  unfold lastDigitBonus; split_ifs <;> omega

theorem lastDigitBonus_le_two (d : ℕ) : lastDigitBonus d ≤ 2 := by
  unfold lastDigitBonus; split_ifs <;> omega

theorem fracScore_branch_bounds (nd last : ℕ) :
    1 ≤ max 1 (10 - 2 * (nd : ℤ)) + lastDigitBonus last ∧
    max 1 (10 - 2 * (nd : ℤ)) + lastDigitBonus last ≤ 15 := by
  have hb1 := lastDigitBonus_nonneg last
  have hb2 := lastDigitBonus_le_two last
  have h1 : (1:ℤ) ≤ max 1 (10 - 2 * (nd:ℤ)) := le_max_left _ _
  have h0 : (0:ℤ) ≤ (nd:ℤ) := Int.ofNat_nonneg _
  have h2 : max 1 (10 - 2 * (nd:ℤ)) ≤ 10 := by omega
  omega

theorem fracScore_bounds (a : ℚ) : 1 ≤ fracScore a ∧ fracScore a ≤ 15 := by
  simp only [fracScore]
  split_ifs with h1 h2 h3
  · omega
  · exact fracScore_branch_bounds _ _
  · omega
  · exact fracScore_branch_bounds _ _

theorem one_le_roundnessScore (q : ℚ) : 1 ≤ roundnessScore q := by
  simp only [roundnessScore]
  split_ifs with h1 h2
  · omega
  · have hb := lastDigitBonus_nonneg ((|q|.num.toNat / 10 ^ trailingZeros |q|.num.toNat) % 10)
    have ht : (0:ℤ) ≤ (trailingZeros |q|.num.toNat : ℤ) := Int.ofNat_nonneg _
    omega
  · exact (fracScore_bounds _).1

theorem foldl_add_nonneg : ∀ (l : List ℤ) (a : ℤ), 0 ≤ a → (∀ x ∈ l, 0 ≤ x) →
    0 ≤ l.foldl (· + ·) a
  | [], a, ha, _ => ha
  | x :: xs, a, ha, hx => by
    simp only [List.foldl_cons]
    exact foldl_add_nonneg xs (a + x) (by
      have := hx x (by simp)
      omega) (fun y hy => hx y (by simp [hy]))

theorem scoreSubset_nonneg (s : List ℚ) : 0 ≤ scoreSubset s := by
  have hbase : 0 ≤ (s.map roundnessScore).foldl (· + ·) 0 := by
    apply foldl_add_nonneg _ _ le_rfl
    intro x hx
    obtain ⟨q, _, rfl⟩ := List.mem_map.mp hx
    exact le_trans (by norm_num) (one_le_roundnessScore q)
  rcases hd : diffs s with _ | ⟨g, gs⟩
  · simp only [scoreSubset, hd]
    exact hbase
  · simp only [scoreSubset, hd]
    split_ifs <;> omega

theorem pickFold_some (p : List ℚ → Bool) :
    ∀ (cands : List (List ℚ)) (s₀ : List ℚ) (sc : ℤ),
      (cands.foldl (pickStep p) (some s₀, sc)).1.isSome = true
  | [], s₀, sc => rfl
  | c :: cs, s₀, sc => by
    simp only [List.foldl_cons]
    unfold pickStep
    split_ifs with h
    · exact pickFold_some p cs c (scoreSubset c)
    · exact pickFold_some p cs s₀ sc

theorem pickFold_mem (p : List ℚ → Bool) :
    ∀ (cands : List (List ℚ)) (acc : Option (List ℚ) × ℤ) (s : List ℚ),
      (cands.foldl (pickStep p) acc).1 = some s →
      acc.1 = some s ∨ (s ∈ cands ∧ p s = true)
  | [], acc, s, h => Or.inl h
  | c :: cs, acc, s, h => by
    simp only [List.foldl_cons] at h
    rcases pickFold_mem p cs (pickStep p acc c) s h with h' | h'
    · unfold pickStep at h'
      split_ifs at h' with hcond
      · simp only [Prod.fst] at h'
        rcases h' with rfl | h''
        · exact Or.inr ⟨by simp, hcond.1⟩
      · exact Or.inl h'
    · exact Or.inr ⟨by simp [h'.1], h'.2⟩

theorem pickFold_none (p : List ℚ → Bool) :
    ∀ (cands : List (List ℚ)) (sc : ℤ),
      (cands.foldl (pickStep p) (none, sc)).1 = none →
      ∀ c ∈ cands, ¬(p c = true ∧ sc < scoreSubset c)
  | [], sc, _, c, hc => by simp at hc
  | c :: cs, sc, h, c', hc' => by
    simp only [List.foldl_cons] at h
    by_cases hcond : p c = true ∧ sc < scoreSubset c
    · exfalso
      rw [show pickStep p (none, sc) c = (some c, scoreSubset c) by
        unfold pickStep; rw [if_pos hcond]] at h
      have := pickFold_some p cs c (scoreSubset c)
      rw [h] at this
      simp at this
    · rw [show pickStep p (none, sc) c = (none, sc) by
        unfold pickStep; rw [if_neg hcond]] at h
      rcases List.mem_cons.mp hc' with rfl | hmem
      · exact hcond
      · exact pickFold_none p cs sc h c' hmem

theorem pickBest_some (p : List ℚ → Bool) (cands : List (List ℚ)) (s : List ℚ)
    (h : (pickBest p cands).1 = some s) : s ∈ cands ∧ p s = true := by
  rcases pickFold_mem p cands (none, -1) s h with h' | h'
  · simp at h'
  · exact h'

theorem pickBest_ne_none (p : List ℚ → Bool) (cands : List (List ℚ))
    (c : List ℚ) (hc : c ∈ cands) (hp : p c = true) : (pickBest p cands).1 ≠ none := by
  intro h
  exact pickFold_none p cands (-1) h c hc
    ⟨hp, lt_of_lt_of_le (by norm_num) (scoreSubset_nonneg c)⟩

theorem sliceStride_length (l : List ℚ) (off st : ℕ) :
    (sliceStride l off st).length = (l.length - off + st - 1) / st := by
  simp [sliceStride]

/-- Ceiling division `(n + m - 1) / m ≤ k ↔ n ≤ m * k`. -/
theorem ceilDiv_le_iff {n m k : ℕ} (hm : 0 < m) : (n + m - 1) / m ≤ k ↔ n ≤ m * k := by
  constructor
  · intro h
    have h2 := Nat.div_add_mod (n + m - 1) m
    have h3 : (n + m - 1) % m < m := Nat.mod_lt _ hm
    have h4 : m * ((n + m - 1) / m) ≤ m * k := Nat.mul_le_mul_left m h
    omega
  · intro h
    by_contra hcon
    push_neg at hcon
    have h1 : k + 1 ≤ (n + m - 1) / m := hcon
    have h2 : (k + 1) * m ≤ n + m - 1 := (Nat.le_div_iff_mul_le hm).mp h1
    have h3 : (k + 1) * m = m * k + m := by ring
    omega

theorem le_ceilDiv_mul (n m : ℕ) (hm : 0 < m) : n ≤ m * ((n + m - 1) / m) :=
  (ceilDiv_le_iff hm).mp le_rfl

theorem two_le_ceilDiv {n m : ℕ} (hm : 0 < m) (h : m < n) : 2 ≤ (n + m - 1) / m := by
  by_contra hcon
  push_neg at hcon
  have h1 : (n + m - 1) / m ≤ 1 := by omega
  have := (ceilDiv_le_iff hm).mp h1
  omega

theorem one_le_ceilDiv {n m : ℕ} (hm : 0 < m) (h : 1 ≤ n) : 1 ≤ (n + m - 1) / m := by
  by_contra hcon
  push_neg at hcon
  have h1 : (n + m - 1) / m ≤ 0 := by omega
  have := (ceilDiv_le_iff hm).mp h1
  omega

/-- Every candidate of the stride search is no longer than the boundary list. -/
theorem strideCandidates_length_le (l : List ℚ) (maxT : ℕ) :
    ∀ c ∈ strideCandidates l maxT, c.length ≤ l.length := by
  intro c hc
  simp only [strideCandidates, List.mem_flatMap, List.mem_map] at hc
  obtain ⟨st, hst, off, _, rfl⟩ := hc
  rw [List.mem_range'] at hst
  obtain ⟨i, _, hsti⟩ := hst
  have hst1 : 1 ≤ st := by omega
  rw [sliceStride_length]
  rw [ceilDiv_le_iff hst1]
  have : l.length - off ≤ l.length := Nat.sub_le _ _
  calc l.length - off ≤ l.length := this
    _ ≤ st * l.length := Nat.le_mul_of_pos_left _ hst1

/-- The stride-`min_stride`, offset-0 candidate: it always exists and its
length is `⌈n / min_stride⌉`, which lies in `[2, max_ticks]` when
`2 ≤ n` and `2 ≤ max_ticks`. -/
theorem good_candidate (l : List ℚ) (maxT : ℕ) (hn : 2 ≤ l.length) (hmax : 2 ≤ maxT) :
    ∃ c ∈ strideCandidates l maxT, 2 ≤ c.length ∧ c.length ≤ maxT := by
  have hmax1 : 0 < maxT := by omega
  have hq1 : (l.length + maxT - 1) / maxT ≤ l.length - 1 := by
    rw [ceilDiv_le_iff hmax1]
    have h2 : 2 * (l.length - 1) ≤ maxT * (l.length - 1) := Nat.mul_le_mul_right _ hmax
    omega
  have hms1 : 1 ≤ max 1 ((l.length + maxT - 1) / maxT) := le_max_left _ _
  have hmslt : max 1 ((l.length + maxT - 1) / maxT) < l.length := by omega
  refine ⟨sliceStride l 0 (max 1 ((l.length + maxT - 1) / maxT)), ?_, ?_, ?_⟩
  · simp only [strideCandidates, List.mem_flatMap]
    refine ⟨max 1 ((l.length + maxT - 1) / maxT), ?_, ?_⟩
    · rw [List.mem_range']
      exact ⟨0, by omega, by omega⟩
    · simp only [List.mem_map]
      refine ⟨0, ?_, rfl⟩
      rw [List.mem_range]
      omega
  · rw [sliceStride_length]
    have := two_le_ceilDiv (show 0 < max 1 ((l.length + maxT - 1) / maxT) by omega) hmslt
    simpa using this
  · rw [sliceStride_length]
    simp only [Nat.sub_zero]
    rw [ceilDiv_le_iff (show 0 < max 1 ((l.length + maxT - 1) / maxT) by omega)]
    calc l.length ≤ maxT * ((l.length + maxT - 1) / maxT) := le_ceilDiv_mul _ maxT hmax1
      _ ≤ maxT * max 1 ((l.length + maxT - 1) / maxT) := Nat.mul_le_mul_left _ (le_max_right _ _)
      _ = max 1 ((l.length + maxT - 1) / maxT) * maxT := Nat.mul_comm _ _

/-- Mirror identity: a list of the form `neg ++ [0] ++ pos` with
`neg = -pos[::-1]` equals its own negated reverse. -/
theorem mirror_triple (B : List ℚ) :
    ((B.reverse.map (fun x : ℚ => -x)) ++ [(0:ℚ)] ++ B).reverse.map (fun x : ℚ => -x) =
      (B.reverse.map (fun x : ℚ => -x)) ++ [(0:ℚ)] ++ B := by
  simp only [List.reverse_append, List.map_append, List.map_reverse, List.map_map,
    List.reverse_reverse, List.reverse_cons, List.reverse_nil, List.nil_append]
  have hid : (fun x : ℚ => -x) ∘ (fun x : ℚ => -x) = id := by
    funext x; simp
  rw [hid]
  simp

/-- Mirror identity without the zero slot. -/
theorem mirror_pair (B : List ℚ) :
    ((B.reverse.map (fun x : ℚ => -x)) ++ B).reverse.map (fun x : ℚ => -x) =
      (B.reverse.map (fun x : ℚ => -x)) ++ B := by
  simp only [List.reverse_append, List.map_append, List.map_reverse, List.map_map,
    List.reverse_reverse]
  have hid : (fun x : ℚ => -x) ∘ (fun x : ℚ => -x) = id := by
    funext x; simp
  rw [hid]
  simp

/-- C8: for every boundary array symmetric about zero (length > 2 and
`boundaries = -boundaries[::-1]`, the `np.allclose` test modelled exactly),
the symmetric tick selector returns a tick set `t` with `t = -t[::-1]`:
the chosen positive subset is mirrored to the negative side and zero is
re-inserted when present. -/
theorem symmetric_ticks_mirror (l : List ℚ) (max_ticks min_ticks : ℕ)
    (hlen : 2 < l.length) (hsym : l.reverse.map (fun x : ℚ => -x) = l) :
    (selectSymmetricTicks l max_ticks min_ticks).reverse.map (fun x : ℚ => -x) =
      selectSymmetricTicks l max_ticks min_ticks := by
  simp only [selectSymmetricTicks]
  split_ifs with h1 h2
  · exact hsym
  · exact mirror_triple _
  · exact mirror_pair _

/-- C8 witness: the mirror identity holds on the concrete symmetric
boundary array `[-2, -1, 0, 1, 2]` with `max_ticks = 5`, `min_ticks = 3`. -/
theorem symmetric_ticks_mirror_inst :
    (selectSymmetricTicks [-2, -1, 0, 1, 2] 5 3).reverse.map (fun x : ℚ => -x) =
      selectSymmetricTicks [-2, -1, 0, 1, 2] 5 3 :=
  symmetric_ticks_mirror [-2, -1, 0, 1, 2] 5 3 (by decide) (by decide)

/-- C9: the stride search never fails on a boundary array with at least two
entries and `max_ticks ≥ 2`: even if no stride/offset subset meets
`min_ticks`, the retry with the minimum relaxed to 2 returns a subset of size
in `[2, max_ticks]`, so the result has size at least `min(min_ticks, 2)` and
at most `max_ticks` and is never `None`. -/
theorem stride_search_fallback_total (l : List ℚ) (max_ticks min_ticks : ℕ)
    (hn : 2 ≤ l.length) (hmax : 2 ≤ max_ticks) :
    ∃ s, bestStrideSubset l max_ticks min_ticks = some s ∧
      min min_ticks 2 ≤ s.length ∧ s.length ≤ max_ticks := by
  obtain ⟨c₀, hc₀mem, hc₀2, hc₀max⟩ := good_candidate l max_ticks hn hmax
  rcases hp1 : (pickBest (fun s => decide (s.length ≤ max_ticks ∧ min_ticks ≤ s.length))
      (strideCandidates l max_ticks)).1 with _ | s
  · have hbss : bestStrideSubset l max_ticks min_ticks =
        (pickBest (fun s => decide (s.length ≤ max_ticks ∧ 2 ≤ s.length))
          (strideCandidates l max_ticks)).1 := by
      simp only [bestStrideSubset]
      rw [hp1]
    rcases hp2 : (pickBest (fun s => decide (s.length ≤ max_ticks ∧ 2 ≤ s.length))
        (strideCandidates l max_ticks)).1 with _ | s
    · exact absurd hp2 (pickBest_ne_none _ _ c₀ hc₀mem (by
        simp only [decide_eq_true_eq]
        exact ⟨hc₀max, hc₀2⟩))
    · obtain ⟨hmem, hp⟩ := pickBest_some _ _ s hp2
      simp only [decide_eq_true_eq] at hp
      exact ⟨s, by rw [hbss, hp2], by omega, hp.1⟩
  · have hbss : bestStrideSubset l max_ticks min_ticks = some s := by
      simp only [bestStrideSubset]
      rw [hp1]
    obtain ⟨hmem, hp⟩ := pickBest_some _ _ s hp1
    simp only [decide_eq_true_eq] at hp
    exact ⟨s, hbss, by omega, hp.1⟩

/-- C9 witness: on `[0, 1, 2, 3, 4, 5]` with `max_ticks = 3` and an
unsatisfiable `min_ticks = 7`, the search still returns a subset of size in
`[2, 3]`. -/
theorem stride_search_fallback_total_inst :
    ∃ s, bestStrideSubset [0, 1, 2, 3, 4, 5] 3 7 = some s ∧
      min 7 2 ≤ s.length ∧ s.length ≤ 3 :=
  stride_search_fallback_total [0, 1, 2, 3, 4, 5] 3 7 (by decide) (by norm_num)

/-- C3: the discrete level generator is free of floating-point drift:
`discrete_cmap(-0.3, 0.3, 0.1)` yields levels exactly
`[-0.3, -0.2, -0.1, 0, 0.1, 0.2, 0.3]`, because the raw `np.arange` levels are
rounded to the decimal precision implied by the interval. -/
theorem discrete_cmap_drift_free_example :
    discreteLevels (-3/10) (3/10) (1/10) false =
      [-3/10, -1/5, -1/10, 0, 1/10, 1/5, 3/10] := by decide

/-- C5: input validation is exact: `auto_levels` fails iff `vmin ≥ vmax` or
`n_levels < 1`, and `log_cmap` fails iff `vmin ≤ 0` or `vmax ≤ vmin`; on all
other inputs both return normally. -/
theorem level_generators_input_validation (vmin vmax : ℚ) (n_levels : ℤ) (per_decade : ℕ) :
    (autoLevels vmin vmax n_levels = none ↔ vmin ≥ vmax ∨ n_levels < 1) ∧
    (logCmapLevels vmin vmax per_decade = none ↔ vmin ≤ 0 ∨ vmax ≤ vmin) := by
  constructor
  · simp only [autoLevels]
    split_ifs with h1 h2
    · simp [h1]
    · simp [h2]
    · simp [h1, h2]
  · simp only [logCmapLevels]
    split_ifs with h1 h2
    · simp [h1]
    · simp [h2]
    · simp [h1, h2]

/-- C7 counterexample: the roundness scorer does not rank zero above every
nonzero integer: `score(10000) = 20 + 3·4 = 32 > 30 = score(0)`. -/
theorem roundness_zero_not_max_counterexample :
    roundnessScore 10000 = 32 ∧ roundnessScore 0 = 30 ∧
      ¬ roundnessScore 0 > roundnessScore 10000 := by decide

/-- C7 amended: zero scores 30; a nonzero integer (with `|value| < 10^15`, the
integer-tier guard in the code) scores `20 + 3·(trailing zeros) + last-digit
bonus`, hence at least 20, and stays below 30 whenever it has at most two
trailing zeros (integers with more trailing zeros can reach 30 and above);
every non-integer scores in `[1, 15]`, strictly below the integer tier; and
the concrete orderings `score(0) > score(100) > score(123)` and
`score(5) > score(2) > score(1)` hold. -/
theorem roundness_tier_ordering (q : ℚ) (hq : q ≠ 0) :
    roundnessScore 0 = 30 ∧
    (q.den = 1 → |q| < 10 ^ 15 →
      20 ≤ roundnessScore q ∧
      (trailingZeros |q|.num.toNat ≤ 2 → roundnessScore q < 30)) ∧
    (q.den ≠ 1 → 1 ≤ roundnessScore q ∧ roundnessScore q ≤ 15) ∧
    (roundnessScore 0 > roundnessScore 100 ∧ roundnessScore 100 > roundnessScore 123 ∧
      roundnessScore 5 > roundnessScore 2 ∧ roundnessScore 2 > roundnessScore 1) := by
  have habsden : |q|.den = q.den := by
    rcases abs_cases q with ⟨h, _⟩ | ⟨h, _⟩
    · rw [h]
    · rw [h, Rat.neg_den]
  refine ⟨by decide, ?_, ?_, by decide⟩
  · intro hden habs
    simp only [roundnessScore]
    split_ifs with h1 h2
    · exact absurd h1 hq
    · constructor
      · have hb := lastDigitBonus_nonneg ((|q|.num.toNat / 10 ^ trailingZeros |q|.num.toNat) % 10)
        have ht : (0:ℤ) ≤ (trailingZeros |q|.num.toNat : ℤ) := Int.ofNat_nonneg _
        omega
      · intro htz
        have hb := lastDigitBonus_le_two ((|q|.num.toNat / 10 ^ trailingZeros |q|.num.toNat) % 10)
        have ht2 : (trailingZeros |q|.num.toNat : ℤ) ≤ 2 := by exact_mod_cast htz
        omega
    · exact absurd ⟨by rw [habsden]; exact hden, habs⟩ h2
  · intro hden
    simp only [roundnessScore]
    split_ifs with h1 h2
    · exact absurd h1 hq
    · exact absurd (habsden ▸ h2.1) hden
    · exact fracScore_bounds _

/-- C7 witness: the amended bounds at the concrete inputs `7` (integer tier)
and `1/2` (fractional tier). -/
theorem roundness_tier_ordering_inst :
    (20 ≤ roundnessScore 7 ∧ roundnessScore 7 < 30) ∧
    (1 ≤ roundnessScore (1/2) ∧ roundnessScore (1/2) ≤ 15) := by
  have h7 := roundness_tier_ordering 7 (by norm_num)
  have hh := roundness_tier_ordering (1/2) (by norm_num)
  have ha := h7.2.1 (by decide) (by decide)
  exact ⟨⟨ha.1, ha.2 (by decide)⟩, hh.2.2.1 (by decide)⟩

/-- The rounding grid implied by `_decimals` is at least ten times finer than
the interval: `interval * 10 ^ _decimals(interval) ≥ 10`. -/
theorem ratDecimals_step (i : ℚ) (hi : 0 < i) : 10 ≤ i * 10 ^ ratDecimals i := by
  have habs : |i| = i := abs_of_pos hi
  obtain ⟨hlo, _⟩ := ilog10_spec i hi
  unfold ratDecimals
  rw [if_neg (ne_of_gt hi), habs]
  have hd : ((max 0 (1 - ilog10 i)).toNat : ℤ) = max 0 (1 - ilog10 i) :=
    Int.toNat_of_nonneg (le_max_left _ _)
  have h1 : (1:ℤ) ≤ ilog10 i + ((max 0 (1 - ilog10 i)).toNat : ℤ) := by omega
  calc (10:ℚ) = pow10 1 := by norm_num [pow10]
    _ ≤ pow10 (ilog10 i + ((max 0 (1 - ilog10 i)).toNat : ℤ)) := pow10_le_pow10 h1
    _ = pow10 (ilog10 i) * pow10 (((max 0 (1 - ilog10 i)).toNat : ℕ) : ℤ) := pow10_add _ _
    _ ≤ i * pow10 (((max 0 (1 - ilog10 i)).toNat : ℕ) : ℤ) :=
        mul_le_mul_of_nonneg_right hlo (le_of_lt (pow10_pos _))
    _ = i * 10 ^ (max 0 (1 - ilog10 i)).toNat := by rw [pow10_natCast]

/-- A map over `List.range` with strictly increasing values is a `<`-chain. -/
theorem chain_lt_map_range (g : ℕ → ℚ) (n : ℕ) (hg : ∀ k, g k < g (k + 1)) :
    ((List.range n).map g).Chain' (· < ·) := by
  rcases n with _ | m
  · simp
  · rw [List.chain'_map]
    exact (List.chain'_range_succ _ m).mpr (fun k _ => hg k)

/-- Rounded `np.arange` output is strictly increasing whenever the step is at
least ten rounding-grid cells wide. -/
theorem arange_map_round_chain (start stop step : ℚ) (d : ℕ)
    (hstep : 10 ≤ step * 10 ^ d) :
    ((arange start stop step).map (roundTo d)).Chain' (· < ·) := by
  unfold arange
  rw [List.map_map]
  apply chain_lt_map_range
  intro k
  apply roundTo_lt_roundTo (i := step) _ hstep
  simp only [Function.comp_apply]
  exact le_of_eq (by push_cast; ring)

/-- Number of `np.arange` samples from `a*i` to `b*i + i/2` with step `i`. -/
theorem arange_count_aligned (a b : ℤ) (i : ℚ) (hi : 0 < i) (hab : a < b) :
    (⌈(((b:ℚ) * i + i/2) - (a:ℚ) * i) / i⌉).toNat = (b - a).toNat + 1 := by
  have hi' : i ≠ 0 := ne_of_gt hi
  have h1 : (((b:ℚ) * i + i/2) - (a:ℚ) * i) / i = ((b - a : ℤ) : ℚ) + 1/2 := by
    field_simp
    ring
  rw [h1]
  have hhalf : ⌈(1:ℚ)/2⌉ = 1 := by decide
  have h2 : ⌈((b - a : ℤ) : ℚ) + 1/2⌉ = (b - a) + 1 := by
    rw [add_comm, Int.ceil_add_int, hhalf]
    omega
  rw [h2]
  omega

/-- C2 counterexample: `discrete_cmap(0, 1.4, 1)` produces levels `[0, 1]`,
whose last entry does not reach `vmax = 1.4`: the levels do not span
`[vmin, vmax]` when `vmax` is not aligned to the interval. -/
theorem discrete_levels_span_counterexample :
    discreteLevels 0 (7/5) 1 false = [0, 1] ∧
    (discreteLevels 0 (7/5) 1 false).getLast? = some 1 ∧ ¬ ((7/5:ℚ) ≤ 1) := by decide

/-- C2 amended: for `vmin < vmax` and `interval > 0` the levels are strictly
increasing (in both modes); and in standard mode, when `vmin` and `vmax` are
integer multiples of the interval and the interval is exactly representable at
its rounding precision, the levels start exactly at `vmin` and end exactly at
`vmax` (spanning `[vmin, vmax]`). -/
theorem discrete_levels_increasing_and_span (vmin vmax i : ℚ) (cw : Bool)
    (h1 : vmin < vmax) (h2 : 0 < i) :
    (discreteLevels vmin vmax i cw).Chain' (· < ·) ∧
    (∀ a b : ℤ, vmin = (a:ℚ) * i → vmax = (b:ℚ) * i →
      (∃ N : ℤ, i * 10 ^ ratDecimals i = (N:ℚ)) → cw = false →
      (discreteLevels vmin vmax i cw).head? = some vmin ∧
      (discreteLevels vmin vmax i cw).getLast? = some vmax) := by
  constructor
  · cases cw
    · simp only [discreteLevels, Bool.false_eq_true, if_false]
      exact arange_map_round_chain _ _ _ _ (ratDecimals_step i h2)
    · simp only [discreteLevels, if_true]
      exact npUnique_chain _
  · intro a b ha hb hN hcw
    obtain ⟨N, hN⟩ := hN
    subst hcw
    have hab : a < b := by
      have hlt : (a:ℚ) * i < (b:ℚ) * i := by rw [← ha, ← hb]; exact h1
      have := (mul_lt_mul_right h2).mp hlt
      exact_mod_cast this
    have hexact : ∀ k : ℤ, roundTo (ratDecimals i) ((k:ℚ) * i) = (k:ℚ) * i := by
      intro k
      apply roundTo_eq_self
      refine ⟨k * N, ?_⟩
      push_cast
      rw [mul_assoc, hN]
    simp only [discreteLevels, Bool.false_eq_true, if_false]
    unfold arange
    rw [ha, hb, arange_count_aligned a b i h2 hab]
    constructor
    · rw [List.range_succ_eq_map]
      simp only [List.map_cons, List.head?_cons]
      congr 1
      push_cast
      rw [show (a:ℚ) * i + 0 * i = (a:ℚ) * i by ring]
      exact hexact a
    · rw [List.map_map, List.range_succ, List.map_append]
      simp only [List.map_cons, List.map_nil, List.getLast?_concat, Function.comp_apply]
      congr 1
      have hcast : (((b - a).toNat : ℕ) : ℚ) = ((b:ℚ) - (a:ℚ)) := by
        have h3 : ((b - a).toNat : ℤ) = b - a := Int.toNat_of_nonneg (by omega)
        have := congrArg (fun z : ℤ => (z : ℚ)) h3
        push_cast at this
        linarith
      rw [hcast, show (a:ℚ) * i + ((b:ℚ) - (a:ℚ)) * i = (b:ℚ) * i by ring]
      exact hexact b

/-- C2 witness: the amended properties at `vmin = 0`, `vmax = 1`,
`interval = 1/2`, standard mode. -/
theorem discrete_levels_increasing_and_span_inst :
    (discreteLevels 0 1 (1/2) false).Chain' (· < ·) ∧
    (discreteLevels 0 1 (1/2) false).head? = some 0 ∧
    (discreteLevels 0 1 (1/2) false).getLast? = some 1 := by
  have h := discrete_levels_increasing_and_span 0 1 (1/2) false (by norm_num) (by norm_num)
  have h2 := h.2 0 2 (by norm_num) (by norm_num) ⟨50, by decide⟩ rfl
  exact ⟨h.1, h2.1, h2.2⟩

theorem pow10_le_pow10_iff {a b : ℤ} : pow10 a ≤ pow10 b ↔ a ≤ b := by
  constructor
  · intro h
    by_contra hc
    push_neg at hc
    exact absurd h (not_le.mpr (pow10_lt_pow10 hc))
  · exact pow10_le_pow10

theorem argminAbs_foldl (t : ℚ) :
    ∀ (cs : List ℚ) (best : ℚ),
      (cs.foldl (fun b c' => if |c' - t| < |b - t| then c' else b) best = best ∨
        cs.foldl (fun b c' => if |c' - t| < |b - t| then c' else b) best ∈ cs) ∧
      |cs.foldl (fun b c' => if |c' - t| < |b - t| then c' else b) best - t| ≤ |best - t| ∧
      (∀ c ∈ cs, |cs.foldl (fun b c' => if |c' - t| < |b - t| then c' else b) best - t| ≤ |c - t|)
  | [], best => ⟨Or.inl rfl, le_refl _, by simp⟩
  | c :: cs, best => by
    simp only [List.foldl_cons]
    obtain ⟨hm, hb, hall⟩ := argminAbs_foldl t cs (if |c - t| < |best - t| then c else best)
    have hstep_le : |(if |c - t| < |best - t| then c else best) - t| ≤ |best - t| := by
      split_ifs with h
      · exact le_of_lt h
      · exact le_refl _
    have hstep_le_c : |(if |c - t| < |best - t| then c else best) - t| ≤ |c - t| := by
      split_ifs with h
      · exact le_refl _
      · exact not_lt.mp h
    refine ⟨?_, le_trans hb hstep_le, ?_⟩
    · rcases hm with hm | hm
      · rw [hm]
        split_ifs with h
        · exact Or.inr (by simp)
        · exact Or.inl rfl
      · exact Or.inr (by simp [hm])
    · intro c' hc'
      rcases List.mem_cons.mp hc' with rfl | hmem
      · exact le_trans hb hstep_le_c
      · exact hall c' hmem

theorem argminAbs_spec (l : List ℚ) (t : ℚ) (h : l ≠ []) :
    argminAbs l t ∈ l ∧ ∀ c ∈ l, |argminAbs l t - t| ≤ |c - t| := by
  rcases l with _ | ⟨c, cs⟩
  · exact absurd rfl h
  · obtain ⟨hm, hb, hall⟩ := argminAbs_foldl t cs c
    constructor
    · show cs.foldl (fun b c' => if |c' - t| < |b - t| then c' else b) c ∈ c :: cs
      rcases hm with hm | hm
      · rw [hm]; exact List.mem_cons_self _ _
      · exact List.mem_cons_of_mem _ hm
    · intro c' hc'
      show |cs.foldl (fun b c' => if |c' - t| < |b - t| then c' else b) c - t| ≤ _
      rcases List.mem_cons.mp hc' with rfl | hmem
      · exact hb
      · exact hall c' hmem

/-- C4 counterexample: `auto_levels(-2.3, 2.7, 10)` does pick interval `0.5`,
but the resulting boundaries contain `3.0`, whose leading significant digit is
`3`, outside `{1, 2, 5, 10}` — the "nice" digit set constrains the interval,
not every boundary. -/
theorem auto_levels_leading_digit_counterexample :
    autoLevels (-23/10) (27/10) 10 =
      some (1/2, [-5/2, -2, -3/2, -1, -1/2, 0, 1/2, 1, 3/2, 2, 5/2, 3]) ∧
    (3:ℚ) ∈ [-5/2, -2, -3/2, -1, -1/2, 0, 1/2, 1, 3/2, 2, (5:ℚ)/2, 3] ∧
    leadingDigit 3 = 3 ∧
    ¬ (leadingDigit 3 = 1 ∨ leadingDigit 3 = 2 ∨ leadingDigit 3 = 5 ∨
        leadingDigit 3 = 10) := by decide

/-- C4 amended: for `vmin < vmax` and `n_levels ≥ 1`, `auto_levels` returns an
interval drawn from `{1, 2, 5, 10} * 10 ^ ⌊log10 raw⌋` (so it is the interval,
not every boundary, whose leading digit is nice), closest of the four
candidates to `raw = (vmax - vmin)/n_levels` in absolute terms, and snaps
`vmin` down and `vmax` up to integer multiples of that interval. -/
theorem auto_levels_nice_interval (vmin vmax : ℚ) (n : ℤ)
    (h1 : vmin < vmax) (h2 : 1 ≤ n) :
    ∃ interval levels, autoLevels vmin vmax n = some (interval, levels) ∧
      interval ∈ [1 * pow10 (ilog10 ((vmax - vmin) / (n:ℚ))),
        2 * pow10 (ilog10 ((vmax - vmin) / (n:ℚ))),
        5 * pow10 (ilog10 ((vmax - vmin) / (n:ℚ))),
        10 * pow10 (ilog10 ((vmax - vmin) / (n:ℚ)))] ∧
      (∀ c ∈ [1 * pow10 (ilog10 ((vmax - vmin) / (n:ℚ))),
        2 * pow10 (ilog10 ((vmax - vmin) / (n:ℚ))),
        5 * pow10 (ilog10 ((vmax - vmin) / (n:ℚ))),
        10 * pow10 (ilog10 ((vmax - vmin) / (n:ℚ)))],
        |interval - (vmax - vmin) / (n:ℚ)| ≤ |c - (vmax - vmin) / (n:ℚ)|) ∧
      0 < interval ∧
      (⌊vmin / interval⌋ : ℚ) * interval ≤ vmin ∧
      vmax ≤ (⌈vmax / interval⌉ : ℚ) * interval := by
  have hnone : autoLevels vmin vmax n =
      some (argminAbs [1 * pow10 (ilog10 ((vmax - vmin) / (n:ℚ))),
          2 * pow10 (ilog10 ((vmax - vmin) / (n:ℚ))),
          5 * pow10 (ilog10 ((vmax - vmin) / (n:ℚ))),
          10 * pow10 (ilog10 ((vmax - vmin) / (n:ℚ)))] ((vmax - vmin) / (n:ℚ)),
        (arange
          ((⌊vmin / argminAbs [1 * pow10 (ilog10 ((vmax - vmin) / (n:ℚ))),
              2 * pow10 (ilog10 ((vmax - vmin) / (n:ℚ))),
              5 * pow10 (ilog10 ((vmax - vmin) / (n:ℚ))),
              10 * pow10 (ilog10 ((vmax - vmin) / (n:ℚ)))] ((vmax - vmin) / (n:ℚ))⌋ : ℚ) *
            argminAbs [1 * pow10 (ilog10 ((vmax - vmin) / (n:ℚ))),
              2 * pow10 (ilog10 ((vmax - vmin) / (n:ℚ))),
              5 * pow10 (ilog10 ((vmax - vmin) / (n:ℚ))),
              10 * pow10 (ilog10 ((vmax - vmin) / (n:ℚ)))] ((vmax - vmin) / (n:ℚ)))
          ((⌈vmax / argminAbs [1 * pow10 (ilog10 ((vmax - vmin) / (n:ℚ))),
              2 * pow10 (ilog10 ((vmax - vmin) / (n:ℚ))),
              5 * pow10 (ilog10 ((vmax - vmin) / (n:ℚ))),
              10 * pow10 (ilog10 ((vmax - vmin) / (n:ℚ)))] ((vmax - vmin) / (n:ℚ))⌉ : ℚ) *
            argminAbs [1 * pow10 (ilog10 ((vmax - vmin) / (n:ℚ))),
              2 * pow10 (ilog10 ((vmax - vmin) / (n:ℚ))),
              5 * pow10 (ilog10 ((vmax - vmin) / (n:ℚ))),
              10 * pow10 (ilog10 ((vmax - vmin) / (n:ℚ)))] ((vmax - vmin) / (n:ℚ)) +
            argminAbs [1 * pow10 (ilog10 ((vmax - vmin) / (n:ℚ))),
              2 * pow10 (ilog10 ((vmax - vmin) / (n:ℚ))),
              5 * pow10 (ilog10 ((vmax - vmin) / (n:ℚ))),
              10 * pow10 (ilog10 ((vmax - vmin) / (n:ℚ)))] ((vmax - vmin) / (n:ℚ)) / 2)
          (argminAbs [1 * pow10 (ilog10 ((vmax - vmin) / (n:ℚ))),
              2 * pow10 (ilog10 ((vmax - vmin) / (n:ℚ))),
              5 * pow10 (ilog10 ((vmax - vmin) / (n:ℚ))),
              10 * pow10 (ilog10 ((vmax - vmin) / (n:ℚ)))] ((vmax - vmin) / (n:ℚ)))).map
          (roundTo (ratDecimals (argminAbs [1 * pow10 (ilog10 ((vmax - vmin) / (n:ℚ))),
              2 * pow10 (ilog10 ((vmax - vmin) / (n:ℚ))),
              5 * pow10 (ilog10 ((vmax - vmin) / (n:ℚ))),
              10 * pow10 (ilog10 ((vmax - vmin) / (n:ℚ)))] ((vmax - vmin) / (n:ℚ))))) ) := by
    simp only [autoLevels, if_neg (not_le.mpr h1), if_neg (not_lt.mpr h2)]
  obtain ⟨hmem, hmin⟩ := argminAbs_spec
    [1 * pow10 (ilog10 ((vmax - vmin) / (n:ℚ))),
      2 * pow10 (ilog10 ((vmax - vmin) / (n:ℚ))),
      5 * pow10 (ilog10 ((vmax - vmin) / (n:ℚ))),
      10 * pow10 (ilog10 ((vmax - vmin) / (n:ℚ)))] ((vmax - vmin) / (n:ℚ)) (by simp)
  have hpos : 0 < argminAbs [1 * pow10 (ilog10 ((vmax - vmin) / (n:ℚ))),
      2 * pow10 (ilog10 ((vmax - vmin) / (n:ℚ))),
      5 * pow10 (ilog10 ((vmax - vmin) / (n:ℚ))),
      10 * pow10 (ilog10 ((vmax - vmin) / (n:ℚ)))] ((vmax - vmin) / (n:ℚ)) := by
    have hp := pow10_pos (ilog10 ((vmax - vmin) / (n:ℚ)))
    simp only [List.mem_cons, List.mem_singleton, List.not_mem_nil, or_false] at hmem
    rcases hmem with h | h | h | h <;> rw [h] <;> linarith
  refine ⟨_, _, hnone, hmem, hmin, hpos, ?_, ?_⟩
  · have hfl := Int.floor_le (vmin / argminAbs [1 * pow10 (ilog10 ((vmax - vmin) / (n:ℚ))),
      2 * pow10 (ilog10 ((vmax - vmin) / (n:ℚ))),
      5 * pow10 (ilog10 ((vmax - vmin) / (n:ℚ))),
      10 * pow10 (ilog10 ((vmax - vmin) / (n:ℚ)))] ((vmax - vmin) / (n:ℚ)))
    have := mul_le_mul_of_nonneg_right hfl (le_of_lt hpos)
    rwa [div_mul_cancel₀ _ (ne_of_gt hpos)] at this
  · have hcl := Int.le_ceil (vmax / argminAbs [1 * pow10 (ilog10 ((vmax - vmin) / (n:ℚ))),
      2 * pow10 (ilog10 ((vmax - vmin) / (n:ℚ))),
      5 * pow10 (ilog10 ((vmax - vmin) / (n:ℚ))),
      10 * pow10 (ilog10 ((vmax - vmin) / (n:ℚ)))] ((vmax - vmin) / (n:ℚ)))
    have := mul_le_mul_of_nonneg_right hcl (le_of_lt hpos)
    rwa [div_mul_cancel₀ _ (ne_of_gt hpos)] at this

/-- C4 witness: the amended properties at `auto_levels(-2.3, 2.7, 10)`. -/
theorem auto_levels_nice_interval_inst :
    ∃ interval levels, autoLevels (-23/10) (27/10) 10 = some (interval, levels) ∧
      interval ∈ [1 * pow10 (ilog10 (((27:ℚ)/10 - -23/10) / ((10:ℤ):ℚ))),
        2 * pow10 (ilog10 (((27:ℚ)/10 - -23/10) / ((10:ℤ):ℚ))),
        5 * pow10 (ilog10 (((27:ℚ)/10 - -23/10) / ((10:ℤ):ℚ))),
        10 * pow10 (ilog10 (((27:ℚ)/10 - -23/10) / ((10:ℤ):ℚ)))] ∧
      (∀ c ∈ [1 * pow10 (ilog10 (((27:ℚ)/10 - -23/10) / ((10:ℤ):ℚ))),
        2 * pow10 (ilog10 (((27:ℚ)/10 - -23/10) / ((10:ℤ):ℚ))),
        5 * pow10 (ilog10 (((27:ℚ)/10 - -23/10) / ((10:ℤ):ℚ))),
        10 * pow10 (ilog10 (((27:ℚ)/10 - -23/10) / ((10:ℤ):ℚ)))],
        |interval - ((27:ℚ)/10 - -23/10) / ((10:ℤ):ℚ)| ≤ |c - ((27:ℚ)/10 - -23/10) / ((10:ℤ):ℚ)|) ∧
      0 < interval ∧
      (⌊(-23:ℚ)/10 / interval⌋ : ℚ) * interval ≤ (-23:ℚ)/10 ∧
      (27:ℚ)/10 ≤ (⌈(27:ℚ)/10 / interval⌉ : ℚ) * interval :=
  auto_levels_nice_interval (-23/10) (27/10) 10 (by norm_num) (by norm_num)

/-- C6 counterexample: with no power of ten inside `[vmin, vmax]`,
`log_cmap(2, 3, per_decade=1)` does not return the empty set of powers of ten
— it falls back to the endpoints `[2, 3]`, which are not powers of ten. -/
theorem log_cmap_fallback_counterexample :
    logCmapLevels 2 3 1 = some [2, 3] ∧ ¬ isPow10 (2:ℚ) := by
  refine ⟨by decide, ?_⟩
  rintro ⟨e, he⟩
  rcases le_or_lt e 0 with h | h
  · have hle : pow10 e ≤ pow10 0 := pow10_le_pow10 h
    rw [← he] at hle
    norm_num [pow10] at hle
  · have hle : pow10 1 ≤ pow10 e := pow10_le_pow10 h
    rw [← he] at hle
    norm_num [pow10] at hle

/-- C6 amended: for `0 < vmin < vmax` with `per_decade = 1`, the raw level
list contains exactly the powers of ten lying within `[vmin, vmax]`, sorted
and de-duplicated; `log_cmap` returns it when it is nonempty and falls back
to `[vmin, vmax]` when no power of ten lies in the range. -/
theorem log_cmap_powers_of_ten (vmin vmax : ℚ) (h0 : 0 < vmin) (h1 : vmin < vmax) :
    (∀ v, v ∈ logLevelsRaw vmin vmax 1 ↔ (isPow10 v ∧ vmin ≤ v ∧ v ≤ vmax)) ∧
    (logLevelsRaw vmin vmax 1).Chain' (· < ·) ∧
    logCmapLevels vmin vmax 1 =
      some (if logLevelsRaw vmin vmax 1 = [] then [vmin, vmax]
        else logLevelsRaw vmin vmax 1) := by
  have hvmax : 0 < vmax := lt_trans h0 h1
  refine ⟨?_, ?_, ?_⟩
  · intro v
    simp only [logLevelsRaw, show logSubs 1 = [1] from rfl]
    rw [npUnique_mem]
    constructor
    · intro hv
      rw [List.mem_flatMap] at hv
      obtain ⟨e, hemem, hv⟩ := hv
      rw [List.mem_filterMap] at hv
      obtain ⟨s, hsmem, hs⟩ := hv
      rw [List.mem_singleton] at hsmem
      subst hsmem
      by_cases hcond : vmin ≤ 1 * pow10 e ∧ 1 * pow10 e ≤ vmax
      · rw [if_pos hcond] at hs
        cases hs
        exact ⟨⟨e, one_mul _⟩, hcond.1, hcond.2⟩
      · rw [if_neg hcond] at hs
        cases hs
    · rintro ⟨⟨e, rfl⟩, hlo, hhi⟩
      have hle : ilog10 vmin ≤ e := by
        rw [← pow10_le_pow10_iff]
        exact le_trans (ilog10_spec vmin h0).1 hlo
      have hge : e ≤ iclog10 vmax := by
        rw [← pow10_le_pow10_iff]
        exact le_trans hhi (iclog10_spec vmax hvmax).2
      rw [List.mem_flatMap]
      refine ⟨e, ?_, ?_⟩
      · rw [List.mem_map]
        refine ⟨(e - ilog10 vmin).toNat, ?_, ?_⟩
        · rw [List.mem_range]
          omega
        · omega
      · rw [List.mem_filterMap]
        refine ⟨1, List.mem_singleton_self 1, ?_⟩
        rw [if_pos ⟨by rwa [one_mul], by rwa [one_mul]⟩, one_mul]
  · simp only [logLevelsRaw]
    exact npUnique_chain _
  · simp only [logCmapLevels, if_neg (not_le.mpr h0), if_neg (not_le.mpr h1)]

/-- C6 witness: membership characterization applied at `1` on
`log_cmap(0.01, 100, per_decade=1)`, whose levels are exactly
`[0.01, 0.1, 1, 10, 100]`. -/
theorem log_cmap_powers_of_ten_inst :
    ((1:ℚ) ∈ logLevelsRaw (1/100) 100 1 ↔
      (isPow10 1 ∧ (1:ℚ)/100 ≤ 1 ∧ (1:ℚ) ≤ 100)) ∧
    logCmapLevels (1/100) 100 1 = some [1/100, 1/10, 1, 10, 100] := by
  have h := log_cmap_powers_of_ten (1/100) 100 (by norm_num) (by norm_num)
  exact ⟨h.1 1, by decide⟩

theorem symCandidates_length_le (pl : List ℚ) (hm : ℕ) :
    ∀ c ∈ symCandidates pl hm, c.length ≤ pl.length := by
  intro c hc
  simp only [symCandidates, List.mem_flatMap, List.mem_map] at hc
  obtain ⟨st, hst, off, _, rfl⟩ := hc
  rw [List.mem_range'] at hst
  obtain ⟨i, _, hsti⟩ := hst
  have hms1 : 1 ≤ (if 0 < hm then max 1 ((pl.length + hm - 1) / hm) else 1) := by
    split_ifs
    · exact le_max_left _ _
    · exact le_refl _
  have hst1 : 1 ≤ st := by omega
  rw [sliceStride_length, ceilDiv_le_iff hst1]
  calc pl.length - off ≤ pl.length := Nat.sub_le _ _
    _ ≤ st * pl.length := Nat.le_mul_of_pos_left _ hst1

theorem symCandidates_good (pl : List ℚ) (hm : ℕ) (hpl : 1 ≤ pl.length) (hhm : 1 ≤ hm) :
    ∃ c ∈ symCandidates pl hm, 1 ≤ c.length ∧ c.length ≤ hm := by
  have hmax1 : 1 ≤ max 1 ((pl.length + hm - 1) / hm) := le_max_left _ _
  have hifpos : (if 0 < hm then max 1 ((pl.length + hm - 1) / hm) else 1) =
      max 1 ((pl.length + hm - 1) / hm) := if_pos (by omega)
  refine ⟨sliceStride pl 0 (max 1 ((pl.length + hm - 1) / hm)), ?_, ?_, ?_⟩
  · simp only [symCandidates, hifpos, List.mem_flatMap]
    refine ⟨max 1 ((pl.length + hm - 1) / hm), ?_, ?_⟩
    · rw [List.mem_range']
      exact ⟨0, by omega, by omega⟩
    · rw [List.mem_map]
      refine ⟨0, ?_, rfl⟩
      rw [List.mem_range]
      omega
  · rw [sliceStride_length]
    simp only [Nat.sub_zero]
    exact one_le_ceilDiv (by omega) hpl
  · rw [sliceStride_length]
    simp only [Nat.sub_zero]
    rw [ceilDiv_le_iff (show 0 < max 1 ((pl.length + hm - 1) / hm) by omega)]
    calc pl.length ≤ hm * ((pl.length + hm - 1) / hm) := le_ceilDiv_mul _ hm (by omega)
      _ ≤ hm * max 1 ((pl.length + hm - 1) / hm) := Nat.mul_le_mul_left _ (le_max_right _ _)
      _ = max 1 ((pl.length + hm - 1) / hm) * hm := Nat.mul_comm _ _

theorem mem_neg_of_symmetric (l : List ℚ) (hsym : l.reverse.map (fun x : ℚ => -x) = l)
    (x : ℚ) (hx : x ∈ l) : -x ∈ l := by
  have h1 : -x ∈ l.reverse.map (fun x : ℚ => -x) :=
    List.mem_map.mpr ⟨x, List.mem_reverse.mpr hx, rfl⟩
  rwa [hsym] at h1

theorem filter_count_split (l : List ℚ) :
    (l.filter (fun x => decide (0 < x))).length + (l.filter (fun x => decide (x < 0))).length +
      (l.filter (fun x => decide (x = 0))).length = l.length := by
  induction l with
  | nil => rfl
  | cons a t ih =>
    simp only [List.filter_cons]
    rcases lt_trichotomy a 0 with h | h | h
    · rw [decide_eq_false (not_lt.mpr (le_of_lt h)), decide_eq_true h,
        decide_eq_false (ne_of_lt h)]
      simp only [List.length_cons, Bool.false_eq_true, if_false, if_true]
      omega
    · rw [decide_eq_false (by rw [h]; exact lt_irrefl 0),
        decide_eq_false (by rw [h]; exact lt_irrefl 0), decide_eq_true h]
      simp only [List.length_cons, Bool.false_eq_true, if_false, if_true]
      omega
    · rw [decide_eq_true h, decide_eq_false (not_lt.mpr (le_of_lt h)),
        decide_eq_false (ne_of_gt h)]
      simp only [List.length_cons, Bool.false_eq_true, if_false, if_true]
      omega

theorem symmetric_pos_neg_count (l : List ℚ) (hsym : l.reverse.map (fun x : ℚ => -x) = l) :
    (l.filter (fun x => decide (0 < x))).length = (l.filter (fun x => decide (x < 0))).length := by
  conv_lhs => rw [← hsym]
  rw [List.filter_map, List.length_map, List.filter_reverse, List.length_reverse]
  congr 1
  apply List.filter_congr
  intro x _
  simp only [Function.comp_apply]
  exact decide_eq_decide.mpr neg_pos

theorem posOnly_filter_eq (l : List ℚ) :
    (l.filter (fun x => decide (0 ≤ x))).filter (fun x => decide (0 < x)) =
      l.filter (fun x => decide (0 < x)) := by
  rw [List.filter_filter]
  apply List.filter_congr
  intro x _
  by_cases h : 0 < x
  · simp [h, le_of_lt h]
  · simp [h]

/-- The aggregate size bounds of `_select_symmetric_ticks` on a strictly
increasing symmetric boundary array with `max_ticks ≥ 3`: the result has at
most `max_ticks` entries (the halved budget plus mirroring plus the zero
slot), and never more entries than the boundary array itself.  `min_ticks`
is not enforced by the symmetric variant. -/
theorem selectSymmetricTicks_length (l : List ℚ) (maxT minT : ℕ)
    (hchain : l.Chain' (· < ·)) (hsym : l.reverse.map (fun x : ℚ => -x) = l)
    (h3 : 3 ≤ maxT) :
    (selectSymmetricTicks l maxT minT).length ≤ maxT ∧
    (selectSymmetricTicks l maxT minT).length ≤ l.length := by
  have hcount := filter_count_split l
  have hpn := symmetric_pos_neg_count l hsym
  simp only [selectSymmetricTicks, posOnly_filter_eq]
  split_ifs with hdeg hz
  · -- degenerate branch: every boundary is 0, so there is at most one
    have hall : ∀ x ∈ l, x = (0:ℚ) := by
      intro x hx
      have hnp : ∀ y ∈ l, ¬ (0 < y) := by
        intro y hy hy0
        have hmem : y ∈ l.filter (fun x => decide (0 < x)) :=
          List.mem_filter.mpr ⟨hy, decide_eq_true hy0⟩
        rw [hdeg] at hmem
        exact absurd hmem (List.not_mem_nil _)
      have h1 := hnp x hx
      have h2 := hnp (-x) (mem_neg_of_symmetric l hsym x hx)
      push_neg at h1 h2
      have h2' : -x ≤ 0 := h2
      linarith
    have hlen1 : l.length ≤ 1 := by
      rcases l with _ | ⟨a, _ | ⟨b, t⟩⟩
      · simp
      · simp
      · exfalso
        have hab : a < b := (List.chain'_cons.mp hchain).1
        have ha := hall a (by simp)
        have hb := hall b (by simp)
        rw [ha, hb] at hab
        exact lt_irrefl _ hab
    exact ⟨le_trans hlen1 (by omega), le_refl _⟩
  · -- zero present: budget (maxT - 1) / 2, result 2·|best| + 1
    have h0mem : (0:ℚ) ∈ l := by
      rcases hfp : l.filter (fun x => decide (0 ≤ x)) with _ | ⟨x, t⟩
      · rw [hfp] at hz
        simp at hz
      · rw [hfp] at hz
        simp only [decide_eq_true_eq] at hz
        have hx : x ∈ l.filter (fun x => decide (0 ≤ x)) := by
          rw [hfp]
          exact List.mem_cons_self _ _
        have := List.mem_of_mem_filter hx
        rwa [hz] at this
    have hzero : 1 ≤ (l.filter (fun x => decide (x = 0))).length := by
      have : (0:ℚ) ∈ l.filter (fun x => decide (x = 0)) :=
        List.mem_filter.mpr ⟨h0mem, by simp⟩
      exact List.length_pos_of_mem this
    have hPOlen : 1 ≤ (l.filter (fun x => decide (0 < x))).length := by
      rcases hPO : l.filter (fun x => decide (0 < x)) with _ | ⟨y, t⟩
      · exact absurd hPO hdeg
      · simp
    obtain ⟨c₀, hc₀mem, hc₀1, hc₀hm⟩ :=
      symCandidates_good (l.filter (fun x => decide (0 < x))) ((maxT - 1) / 2) hPOlen (by omega)
    rcases hbest : (pickBest (fun s => decide (s.length ≤ (maxT - 1) / 2 ∧ 1 ≤ s.length))
        (symCandidates (l.filter (fun x => decide (0 < x))) ((maxT - 1) / 2))).1 with _ | s
    · exact absurd hbest (pickBest_ne_none _ _ c₀ hc₀mem (by
        simp only [decide_eq_true_eq]
        exact ⟨hc₀hm, hc₀1⟩))
    · simp only [Option.getD_some]
      obtain ⟨hsmem, hsp⟩ := pickBest_some _ _ s hbest
      simp only [decide_eq_true_eq] at hsp
      have hslen := symCandidates_length_le _ _ s hsmem
      simp only [List.length_append, List.length_map, List.length_reverse,
        List.length_cons, List.length_nil]
      constructor
      · omega
      · omega
  · -- no zero: budget maxT / 2, result 2·|best|
    have hPOlen : 1 ≤ (l.filter (fun x => decide (0 < x))).length := by
      rcases hPO : l.filter (fun x => decide (0 < x)) with _ | ⟨y, t⟩
      · exact absurd hPO hdeg
      · simp
    obtain ⟨c₀, hc₀mem, hc₀1, hc₀hm⟩ :=
      symCandidates_good (l.filter (fun x => decide (0 < x))) (maxT / 2) hPOlen (by omega)
    rcases hbest : (pickBest (fun s => decide (s.length ≤ maxT / 2 ∧ 1 ≤ s.length))
        (symCandidates (l.filter (fun x => decide (0 < x))) (maxT / 2))).1 with _ | s
    · exact absurd hbest (pickBest_ne_none _ _ c₀ hc₀mem (by
        simp only [decide_eq_true_eq]
        exact ⟨hc₀hm, hc₀1⟩))
    · simp only [Option.getD_some]
      obtain ⟨hsmem, hsp⟩ := pickBest_some _ _ s hbest
      simp only [decide_eq_true_eq] at hsp
      have hslen := symCandidates_length_le _ _ s hsmem
      simp only [List.length_append, List.length_map, List.length_reverse]
      constructor
      · omega
      · omega

theorem bestStrideSubset_mem (l : List ℚ) (maxT minT : ℕ) (s : List ℚ)
    (h : bestStrideSubset l maxT minT = some s) : s ∈ strideCandidates l maxT := by
  rcases hp1 : (pickBest (fun s => decide (s.length ≤ maxT ∧ minT ≤ s.length))
      (strideCandidates l maxT)).1 with _ | s'
  · have heq : bestStrideSubset l maxT minT =
        (pickBest (fun s => decide (s.length ≤ maxT ∧ 2 ≤ s.length)) (strideCandidates l maxT)).1 := by
      simp only [bestStrideSubset]
      rw [hp1]
    rw [heq] at h
    exact (pickBest_some _ _ _ h).1
  · have heq : bestStrideSubset l maxT minT = some s' := by
      simp only [bestStrideSubset]
      rw [hp1]
    rw [heq] at h
    injection h with h'
    subst h'
    exact (pickBest_some _ _ _ hp1).1

/-- C1 counterexample: on the symmetric boundaries `[-7, ..., 7]` (15 entries)
with `max_ticks = min_ticks = 8`, the stride-2/offset-0 subset has exactly 8
entries — a satisfying stride/offset subset exists — yet the tick selection
takes the symmetric path and returns only 7 ticks, breaking the lower bound. -/
theorem tick_selection_bounds_counterexample :
    isSymmetric [-7, -6, -5, -4, -3, -2, -1, 0, 1, 2, 3, 4, 5, 6, 7] = true ∧
    sliceStride [-7, -6, -5, -4, -3, -2, -1, 0, 1, 2, 3, 4, 5, 6, 7] 0 2 ∈
      strideCandidates [-7, -6, -5, -4, -3, -2, -1, 0, 1, 2, 3, 4, 5, 6, 7] 8 ∧
    (sliceStride [-7, -6, -5, -4, -3, -2, -1, 0, 1, 2, 3, 4, 5, 6, 7] 0 2).length = 8 ∧
    selectSymmetricTicks [-7, -6, -5, -4, -3, -2, -1, 0, 1, 2, 3, 4, 5, 6, 7] 8 8 =
      [-7, -4, -1, 0, 1, 4, 7] ∧
    ¬ (8 ≤ (selectSymmetricTicks [-7, -6, -5, -4, -3, -2, -1, 0, 1, 2, 3, 4, 5, 6, 7] 8 8).length) := by
  decide

/-- C1 amended: (i) any subset returned by `_best_stride_subset` is one of the
enumerated stride/offset slices, hence never longer than the boundary array;
(ii) when some enumerated stride/offset subset has size in
`[min_ticks, max_ticks]`, the returned subset exists and its size lies in
`[min_ticks, max_ticks]`; (iii) the symmetric variant, on a strictly
increasing symmetric boundary array with `max_ticks ≥ 3`, returns at most
`max_ticks` ticks and never more than the boundary count — but its `min_ticks`
lower bound is not guaranteed (see the counterexample). -/
theorem tick_selection_size_bounds (l : List ℚ) (max_ticks min_ticks : ℕ)
    (hmax1 : 1 ≤ max_ticks) :
    (∀ s, bestStrideSubset l max_ticks min_ticks = some s → s.length ≤ l.length) ∧
    ((∃ c ∈ strideCandidates l max_ticks, min_ticks ≤ c.length ∧ c.length ≤ max_ticks) →
      ∃ s, bestStrideSubset l max_ticks min_ticks = some s ∧
        min_ticks ≤ s.length ∧ s.length ≤ max_ticks) ∧
    (l.Chain' (· < ·) → l.reverse.map (fun x : ℚ => -x) = l → 3 ≤ max_ticks →
      (selectSymmetricTicks l max_ticks min_ticks).length ≤ max_ticks ∧
      (selectSymmetricTicks l max_ticks min_ticks).length ≤ l.length) := by
  refine ⟨?_, ?_, ?_⟩
  · intro s hs
    exact strideCandidates_length_le l max_ticks s (bestStrideSubset_mem l max_ticks min_ticks s hs)
  · rintro ⟨c, hcmem, hcmin, hcmax⟩
    rcases hp1 : (pickBest (fun s => decide (s.length ≤ max_ticks ∧ min_ticks ≤ s.length))
        (strideCandidates l max_ticks)).1 with _ | s
    · exact absurd hp1 (pickBest_ne_none _ _ c hcmem (by
        simp only [decide_eq_true_eq]
        exact ⟨hcmax, hcmin⟩))
    · have heq : bestStrideSubset l max_ticks min_ticks = some s := by
        simp only [bestStrideSubset]
        rw [hp1]
      obtain ⟨hsmem, hsp⟩ := pickBest_some _ _ s hp1
      simp only [decide_eq_true_eq] at hsp
      exact ⟨s, heq, hsp.2, hsp.1⟩
  · intro hchain hsym h3
    exact selectSymmetricTicks_length l max_ticks min_ticks hchain hsym h3

/-- C1 witness: the amended bounds at the symmetric boundaries
`[-2, -1.5, ..., 2]` with `max_ticks = 5`, `min_ticks = 3` (the stride-2
offset-0 slice has 5 entries, witnessing the existence hypothesis). -/
theorem tick_selection_size_bounds_inst :
    (∃ s, bestStrideSubset [-2, -3/2, -1, -1/2, 0, 1/2, 1, 3/2, 2] 5 3 = some s ∧
      3 ≤ s.length ∧ s.length ≤ 5) ∧
    (selectSymmetricTicks [-2, -3/2, -1, -1/2, 0, 1/2, 1, 3/2, 2] 5 3).length ≤ 5 ∧
    (selectSymmetricTicks [-2, -3/2, -1, -1/2, 0, 1/2, 1, 3/2, 2] 5 3).length ≤ 9 := by
  have h := tick_selection_size_bounds [-2, -3/2, -1, -1/2, 0, 1/2, 1, 3/2, 2] 5 3 (by norm_num)
  have hex : ∃ c ∈ strideCandidates [-2, -3/2, -1, -1/2, 0, 1/2, 1, 3/2, 2] 5,
      3 ≤ c.length ∧ c.length ≤ 5 := by
    refine ⟨sliceStride [-2, -3/2, -1, -1/2, 0, 1/2, 1, 3/2, 2] 0 2, by decide, by decide, by decide⟩
  have hsymlen := h.2.2
    (by simp only [List.chain'_cons, List.chain'_singleton, and_true]; norm_num)
    (by decide) (by norm_num)
  exact ⟨h.2.1 hex, hsymlen.1, hsymlen.2⟩

theorem mem_arange (start stop step : ℚ) (y : ℚ) :
    y ∈ arange start stop step ↔
      ∃ k : ℕ, k < (⌈(stop - start) / step⌉).toNat ∧ y = start + (k:ℚ) * step := by
  unfold arange
  rw [List.mem_map]
  constructor
  · rintro ⟨k, hk, rfl⟩
    exact ⟨k, List.mem_range.mp hk, rfl⟩
  · rintro ⟨k, hk, rfl⟩
    exact ⟨k, List.mem_range.mpr hk, rfl⟩

theorem arange_lt_stop (start stop step : ℚ) (hstep : 0 < step) (y : ℚ)
    (hy : y ∈ arange start stop step) : y < stop := by
  rw [mem_arange] at hy
  obtain ⟨k, hk, rfl⟩ := hy
  have hkz : (k:ℤ) < ⌈(stop - start) / step⌉ := by omega
  have h2 : ((k:ℚ)) + 1 ≤ (⌈(stop - start) / step⌉ : ℚ) := by exact_mod_cast hkz
  have h3 := Int.ceil_lt_add_one ((stop - start) / step)
  have h1 : ((k:ℚ)) < (stop - start) / step := by linarith
  have h4 : (k:ℚ) * step < stop - start := (lt_div_iff₀ hstep).mp h1
  linarith

/-- Membership in the center-on-white levels: the rounded image of the
negative ramp, the white band `±interval/2`, or the positive ramp. -/
theorem discreteLevels_white_mem (vmin vmax i : ℚ) (x : ℚ) :
    x ∈ discreteLevels vmin vmax i true ↔
      ∃ y ∈ arange vmin (-i/10) i ++ [-i/2, i/2] ++ arange i (vmax + i/2) i,
        x = roundTo (ratDecimals i) y := by
  simp only [discreteLevels, if_true]
  rw [npUnique_mem, List.mem_map]
  constructor
  · rintro ⟨y, hy, rfl⟩
    rw [npUnique_mem] at hy
    exact ⟨y, hy, rfl⟩
  · rintro ⟨y, hy, rfl⟩
    exact ⟨y, (npUnique_mem _ _).mpr hy, rfl⟩

/-- C10 counterexample: `discrete_cmap(-0.12, 1, 0.5, center_on_white=True)`
keeps the raw boundary `-0.12`, which lies strictly between `-interval/2 =
-0.25` and zero, so the two boundaries closest to zero are not `±interval/2`
when `vmin` is not aligned to the interval. -/
theorem center_white_closest_counterexample :
    discreteLevels (-3/25) 1 (1/2) true = [-1/4, -3/25, 1/4, 1/2, 1] ∧
    (-3/25 : ℚ) ∈ discreteLevels (-3/25) 1 (1/2) true ∧
    -(1:ℚ)/2/2 < -3/25 ∧ (-3/25 : ℚ) < 0 := by decide

/-- C10 amended: with `interval > 0` and `center_on_white=True`, zero is never
among the levels (for any `vmin`, `vmax`); and when `vmin` is a negative
integer multiple of the interval and the interval is exactly representable at
its rounding precision, the rounded white-band boundaries `round(±interval/2)`
belong to the levels and are the two levels closest to zero. -/
theorem center_white_levels (vmin vmax i : ℚ) (h2 : 0 < i) :
    ((0:ℚ) ∉ discreteLevels vmin vmax i true) ∧
    (∀ a : ℤ, vmin = (a:ℚ) * i → a < 0 →
      (∃ N : ℤ, i * 10 ^ ratDecimals i = (N:ℚ)) →
      (roundTo (ratDecimals i) (-i/2) ∈ discreteLevels vmin vmax i true ∧
       roundTo (ratDecimals i) (i/2) ∈ discreteLevels vmin vmax i true ∧
       (∀ x ∈ discreteLevels vmin vmax i true,
         (x < 0 → x ≤ roundTo (ratDecimals i) (-i/2)) ∧
         (0 < x → roundTo (ratDecimals i) (i/2) ≤ x)))) := by
  have hstep10 := ratDecimals_step i h2
  have h10d : (0:ℚ) < 10 ^ ratDecimals i := by positivity
  have hgrid : 1/2 / 10 ^ ratDecimals i ≤ i / 20 := by
    rw [div_le_div_iff h10d (by norm_num : (0:ℚ) < 20)]
    linarith
  have hup : ∀ y : ℚ, roundTo (ratDecimals i) y ≤ y + i / 20 :=
    fun y => le_trans (roundTo_le _ y) (by linarith)
  have hdown : ∀ y : ℚ, y - i / 20 ≤ roundTo (ratDecimals i) y :=
    fun y => le_trans (by linarith) (le_roundTo _ y)
  constructor
  · intro h0
    rw [discreteLevels_white_mem] at h0
    obtain ⟨y, hy, h0⟩ := h0
    rcases List.mem_append.mp hy with hy' | hy'
    · rcases List.mem_append.mp hy' with hneg | hwhite
      · have hlt := arange_lt_stop vmin (-i/10) i h2 y hneg
        have := hup y
        rw [← h0] at this
        linarith
      · rcases List.mem_cons.mp hwhite with rfl | hwhite'
        · have := hup (-i/2)
          rw [← h0] at this
          linarith
        · rcases List.mem_cons.mp hwhite' with rfl | habs
          · have := hdown (i/2)
            rw [← h0] at this
            linarith
          · exact absurd habs (List.not_mem_nil _)
    · rw [mem_arange] at hy'
      obtain ⟨k, _, rfl⟩ := hy'
      have hge : i ≤ i + (k:ℚ) * i := by
        have : (0:ℚ) ≤ (k:ℚ) * i := mul_nonneg (by positivity) (le_of_lt h2)
        linarith
      have := hdown (i + (k:ℚ) * i)
      rw [← h0] at this
      linarith
  · intro a ha haneg hN
    obtain ⟨N, hN⟩ := hN
    have hexact : ∀ m : ℤ, roundTo (ratDecimals i) ((m:ℚ) * i) = (m:ℚ) * i := by
      intro m
      apply roundTo_eq_self
      refine ⟨m * N, ?_⟩
      push_cast
      rw [mul_assoc, hN]
    have hmemw : ∀ w ∈ ([-i/2, i/2] : List ℚ),
        roundTo (ratDecimals i) w ∈ discreteLevels vmin vmax i true := by
      intro w hw
      rw [discreteLevels_white_mem]
      exact ⟨w, List.mem_append.mpr (Or.inl (List.mem_append.mpr (Or.inr hw))), rfl⟩
    refine ⟨hmemw _ (by simp), hmemw _ (by simp), ?_⟩
    intro x hx
    rw [discreteLevels_white_mem] at hx
    obtain ⟨y, hy, rfl⟩ := hx
    rcases List.mem_append.mp hy with hy' | hy'
    · rcases List.mem_append.mp hy' with hneg | hwhite
      · -- negative ramp: y = (a+k)·i is a multiple of i below -i/10, so y ≤ -i
        have hlt := arange_lt_stop vmin (-i/10) i h2 y hneg
        rw [mem_arange] at hneg
        obtain ⟨k, _, rfl⟩ := hneg
        have hyform : vmin + (k:ℚ) * i = ((a + (k:ℤ) : ℤ) : ℚ) * i := by
          rw [ha]
          push_cast
          ring
        have hmle : ((a + (k:ℤ) : ℤ) : ℚ) * i ≤ -i := by
          have hlt' : ((a + (k:ℤ) : ℤ) : ℚ) * i < (-1/10) * i := by
            rw [← hyform]
            calc vmin + (k:ℚ) * i < -i/10 := hlt
              _ = (-1/10) * i := by ring
          have hm1 : ((a + (k:ℤ) : ℤ) : ℚ) < -1/10 := (mul_lt_mul_right h2).mp hlt'
          have hm2 : (a + (k:ℤ)) < 0 := by
            by_contra hc
            push_neg at hc
            have : (0:ℚ) ≤ ((a + (k:ℤ) : ℤ) : ℚ) := by exact_mod_cast hc
            linarith
          have hm3 : (a + (k:ℤ)) ≤ -1 := by omega
          have hm4 : ((a + (k:ℤ) : ℤ) : ℚ) ≤ -1 := by exact_mod_cast hm3
          calc ((a + (k:ℤ) : ℤ) : ℚ) * i ≤ (-1) * i :=
              mul_le_mul_of_nonneg_right hm4 (le_of_lt h2)
            _ = -i := by ring
        have hxval : roundTo (ratDecimals i) (vmin + (k:ℚ) * i) = vmin + (k:ℚ) * i := by
          rw [hyform]
          exact hexact _
        rw [hxval]
        constructor
        · intro _
          have hbound := hdown (-i/2)
          have : vmin + (k:ℚ) * i ≤ -i := by rw [hyform]; exact hmle
          linarith
        · intro hpos
          have : vmin + (k:ℚ) * i ≤ -i := by rw [hyform]; exact hmle
          linarith
      · rcases List.mem_cons.mp hwhite with rfl | hwhite'
        · constructor
          · intro _
            exact le_refl _
          · intro hpos
            have := hup (-i/2)
            linarith
        · rcases List.mem_cons.mp hwhite' with rfl | habs
          · constructor
            · intro hneg'
              have := hdown (i/2)
              linarith
            · intro _
              exact le_refl _
          · exact absurd habs (List.not_mem_nil _)
    · -- positive ramp: y = (k+1)·i is a multiple of i at least i
      rw [mem_arange] at hy'
      obtain ⟨k, _, rfl⟩ := hy'
      have hyform : i + (k:ℚ) * i = (((k:ℤ) + 1 : ℤ) : ℚ) * i := by
        push_cast
        ring
      have hxval : roundTo (ratDecimals i) (i + (k:ℚ) * i) = i + (k:ℚ) * i := by
        rw [hyform]
        exact hexact _
      have hge : i ≤ i + (k:ℚ) * i := by
        have : (0:ℚ) ≤ (k:ℚ) * i := mul_nonneg (by positivity) (le_of_lt h2)
        linarith
      rw [hxval]
      constructor
      · intro hneg'
        linarith
      · intro _
        have := hup (i/2)
        linarith

/-- C10 witness: the amended properties at
`discrete_cmap(-1, 1, 0.5, center_on_white=True)`. -/
theorem center_white_levels_inst :
    ((0:ℚ) ∉ discreteLevels (-1) 1 (1/2) true) ∧
    roundTo (ratDecimals (1/2)) (-(1/2)/2) ∈ discreteLevels (-1) 1 (1/2) true ∧
    roundTo (ratDecimals (1/2)) ((1/2)/2) ∈ discreteLevels (-1) 1 (1/2) true := by
  have h := center_white_levels (-1) 1 (1/2) (by norm_num)
  have ha := h.2 (-2) (by norm_num) (by norm_num) ⟨50, by decide⟩
  exact ⟨h.1, ha.1, ha.2.1⟩

end ClimplotModel
